import Mathlib

/-!
# Lightweight filtering: outlier-detection chain and model base

A shallow embedding of `OutlierDetection.hpp` and `ModelBase.hpp`.

Conventions of the embedding:

* `double` is an arbitrary linearly ordered field `α` (exact arithmetic);
* `unsigned int` is `Nat`, reduced modulo `UINT_MOD = 2 ^ 32` wherever the
  source performs arithmetic on it (`S+D` in the template arguments and in the
  static assertion, `outlierCount_++`);
* fixed-size Eigen matrices are `Matrix (Fin r) (Fin c) α`; assertions are
  active: the range assertion of `block`, the static assertion of
  `doOutlierDetection` and the `assert(0)` of the sentinel end a call with a
  `Failure` instead of a value;
* Eigen's `inverse()` is a parameter of `check` and `doOutlierDetection`; the
  manifold types of `ModelBase` are parameters of the model;
* objects passed by mutable reference (`Py`, `H`, the gates themselves) are
  returned as the new state.
-/

namespace LWF

/-! ## Outlier detection: data model -/

/-- Modulus of `unsigned int` arithmetic. -/
def UINT_MOD : Nat := 2 ^ 32

/-- The ways in which a call ends without a value. -/
inductive Failure where
  /-- The `static_assert(dI>=S+D, ...)` of `doOutlierDetection`. -/
  | staticAssert
  /-- The range assertion of an Eigen primitive (`block`, `maxCoeff`). -/
  | eigenAssert
  /-- The `assert(0)` of `OutlierDetectionDefault`. -/
  | assert0
  deriving DecidableEq, Repr

deriving instance DecidableEq for Except

/-- The descriptor `ODEntry<S,D,N>`: offset, width and repeat count. -/
structure ODEntry where
  S_ : Nat
  D_ : Nat
  N : Nat := 1
  deriving DecidableEq, Repr

/-- The class `OutlierDetectionBase<S,D>`: one gate. `S_` and `D_` are the static
constants of the class, the other four fields are its data members. -/
structure OutlierDetectionBase (α : Type) where
  S_ : Nat
  D_ : Nat
  outlier_ : Bool
  enabled_ : Bool
  mahalanobisTh_ : α
  outlierCount_ : Nat

/-- The constructor `OutlierDetectionBase<S,D>::OutlierDetectionBase()`. -/
def OutlierDetectionBase.init (α : Type) [LinearOrderedField α] (S D : Nat) :
    OutlierDetectionBase α :=
  { S_ := S
    D_ := D
    mahalanobisTh_ := -0.0376136 * (D : α) * (D : α) + 1.99223 * (D : α) + 2.05183
    enabled_ := false
    outlier_ := false
    outlierCount_ := 0 }

/-- A chain object: `OutlierDetectionConcat<S,D,T>` is a gate followed by the
member `sub_` of type `T`; `OutlierDetectionDefault` (an
`OutlierDetectionBase<0,0>`) is the sentinel that ends it. -/
inductive Chain (α : Type) where
  | OutlierDetectionDefault (base : OutlierDetectionBase α) : Chain α
  | OutlierDetectionConcat (base : OutlierDetectionBase α) (sub_ : Chain α) : Chain α

/-- The default-constructed sentinel `OutlierDetectionDefault`. -/
def OutlierDetectionDefault.init (α : Type) [LinearOrderedField α] : Chain α :=
  .OutlierDetectionDefault (OutlierDetectionBase.init α 0 0)

/-- The default-constructed `OutlierDetectionConcat<S,D,T>` around a
default-constructed `sub_`. -/
def OutlierDetectionConcat.init (α : Type) [LinearOrderedField α] (S D : Nat)
    (sub_ : Chain α) : Chain α :=
  .OutlierDetectionConcat (OutlierDetectionBase.init α S D) sub_

/-- The gates of a chain in chain order, head first, the sentinel left out. -/
def Chain.gates {α : Type} : Chain α → List (OutlierDetectionBase α)
  | .OutlierDetectionDefault _ => []
  | .OutlierDetectionConcat base sub_ => base :: sub_.gates

/-- The sentinel that ends a chain. -/
def Chain.sentinel {α : Type} : Chain α → OutlierDetectionBase α
  | .OutlierDetectionDefault base => base
  | .OutlierDetectionConcat _ sub_ => sub_.sentinel

/-- The index ranges of the gates of a chain, as pairs (offset, width). -/
def Chain.ranges {α : Type} (c : Chain α) : List (Nat × Nat) :=
  c.gates.map fun g => (g.S_, g.D_)

/-- Termination measure of the template recursion of `OutlierDetection`. -/
def ODEntry.weight (l : List ODEntry) : Nat :=
  (l.map fun e => e.N + 1).sum

/-- The class template `OutlierDetection<ODEntries...>`, as the object a default
construction of it gives. The primary template is a class without members: it
is not a chain (`none`). The six partial specialisations are listed in the
order of the source; `S+D` is `unsigned int` arithmetic. -/
def OutlierDetection (α : Type) [LinearOrderedField α] : List ODEntry → Option (Chain α)
  | [] => none
  | [⟨_, _, 0⟩] => some (OutlierDetectionDefault.init α)
  | [⟨S, D, 1⟩] => some (OutlierDetectionConcat.init α S D (OutlierDetectionDefault.init α))
  | [⟨S, D, N + 2⟩] =>
      (OutlierDetection α [⟨(S + D) % UINT_MOD, D, N + 1⟩]).map
        (OutlierDetectionConcat.init α S D)
  | ⟨_, _, 0⟩ :: e :: ODEntries => OutlierDetection α (e :: ODEntries)
  | ⟨S, D, 1⟩ :: e :: ODEntries =>
      (OutlierDetection α (e :: ODEntries)).map (OutlierDetectionConcat.init α S D)
  | ⟨S, D, N + 2⟩ :: e :: ODEntries =>
      (OutlierDetection α (⟨(S + D) % UINT_MOD, D, N + 1⟩ :: e :: ODEntries)).map
        (OutlierDetectionConcat.init α S D)
termination_by l => ODEntry.weight l
decreasing_by
  all_goals simp [ODEntry.weight]

/-! ## Outlier detection: operations -/

section Operations

variable {α : Type} [LinearOrderedField α]

/-- The slice `M[i : i+p, j : j+q]` of a matrix whose range lies inside it. -/
def slice {m n : Nat} (M : Matrix (Fin m) (Fin n) α) (i j p q : Nat)
    (h : i + p ≤ m ∧ j + q ≤ n) : Matrix (Fin p) (Fin q) α :=
  fun a b => M ⟨i + a.val, by omega⟩ ⟨j + b.val, by omega⟩

/-- Eigen: reading `M.block(i,j,p,q)`; the block has to lie inside `M`. -/
def block {m n : Nat} (M : Matrix (Fin m) (Fin n) α) (i j p q : Nat) :
    Except Failure (Matrix (Fin p) (Fin q) α) :=
  if h : i + p ≤ m ∧ j + q ≤ n then .ok (slice M i j p q h) else .error .eigenAssert

/-- Eigen: `M.block(i,j,p,q).setZero()`. -/
def blockSetZero {m n : Nat} (M : Matrix (Fin m) (Fin n) α) (i j p q : Nat) :
    Except Failure (Matrix (Fin m) (Fin n) α) :=
  if i + p ≤ m ∧ j + q ≤ n then
    .ok fun r c =>
      if i ≤ r.val ∧ r.val < i + p ∧ j ≤ c.val ∧ c.val < j + q then 0 else M r c
  else .error .eigenAssert

/-- Eigen: `M.block(i,j,p,q).setIdentity()`. -/
def blockSetIdentity {m n : Nat} (M : Matrix (Fin m) (Fin n) α) (i j p q : Nat) :
    Except Failure (Matrix (Fin m) (Fin n) α) :=
  if i + p ≤ m ∧ j + q ≤ n then
    .ok fun r c =>
      if i ≤ r.val ∧ r.val < i + p ∧ j ≤ c.val ∧ c.val < j + q then
        (if r.val - i = c.val - j then 1 else 0)
      else M r c
  else .error .eigenAssert

/-- The method `OutlierDetectionBase<S,D>::check`. The parameter `inverse` is Eigen's
`inverse()` on a square matrix. -/
def check (inverse : (k : Nat) → Matrix (Fin k) (Fin k) α → Matrix (Fin k) (Fin k) α)
    (g : OutlierDetectionBase α) {E : Nat} (innVector : Matrix (Fin E) (Fin 1) α)
    (Py : Matrix (Fin E) (Fin E) α) : Except Failure (OutlierDetectionBase α) := do
  let vT ← block innVector g.S_ 0 g.D_ 1
  let P ← block Py g.S_ g.S_ g.D_ g.D_
  let v ← block innVector g.S_ 0 g.D_ 1
  let d : α := (vT.transpose * inverse g.D_ P * v) 0 0
  let outlier : Bool := decide (d > g.mahalanobisTh_)
  if outlier then
    .ok { g with outlier_ := outlier, outlierCount_ := (g.outlierCount_ + 1) % UINT_MOD }
  else
    .ok { g with outlier_ := outlier, outlierCount_ := 0 }

/-- The run-time body of `doOutlierDetection`: `OutlierDetectionDefault` does
nothing; `OutlierDetectionConcat` checks its gate, lets `sub_` process the same
`innVector`, `Py` and `H`, and then neutralises its own block. -/
def doOutlierDetection.body
    (inverse : (k : Nat) → Matrix (Fin k) (Fin k) α → Matrix (Fin k) (Fin k) α)
    {dI dS : Nat} :
    Chain α → Matrix (Fin dI) (Fin 1) α → Matrix (Fin dI) (Fin dI) α →
      Matrix (Fin dI) (Fin dS) α →
      Except Failure (Chain α × Matrix (Fin dI) (Fin dI) α × Matrix (Fin dI) (Fin dS) α)
  | .OutlierDetectionDefault base, _, Py, H => .ok (.OutlierDetectionDefault base, Py, H)
  | .OutlierDetectionConcat base sub_, innVector, Py, H => do
      let base1 ← check inverse base innVector Py
      let (sub1, Py1, H1) ← doOutlierDetection.body inverse sub_ innVector Py H
      if base1.outlier_ && base1.enabled_ then
        let Py2 ← blockSetZero Py1 0 base1.S_ dI base1.D_
        let Py3 ← blockSetZero Py2 base1.S_ 0 base1.D_ dI
        let Py4 ← blockSetIdentity Py3 base1.S_ base1.S_ base1.D_ base1.D_
        let H2 ← blockSetZero H1 base1.S_ 0 base1.D_ dS
        .ok (.OutlierDetectionConcat base1 sub1, Py4, H2)
      else
        .ok (.OutlierDetectionConcat base1 sub1, Py1, H1)

/-- The static assertions `dI>=S+D` that instantiating `doOutlierDetection` for a
chain evaluates: one for every `OutlierDetectionConcat` of it. `dI` is a
non-negative `int`, `S+D` is `unsigned int` arithmetic. -/
def doOutlierDetection.static_assert : Chain α → Nat → Bool
  | .OutlierDetectionDefault _, _ => true
  | .OutlierDetectionConcat base sub_, dI =>
      decide (dI ≥ (base.S_ + base.D_) % UINT_MOD) && doOutlierDetection.static_assert sub_ dI

/-- The method `doOutlierDetection` of a chain: the static assertions are settled
when the template is instantiated, before anything runs. -/
def doOutlierDetection
    (inverse : (k : Nat) → Matrix (Fin k) (Fin k) α → Matrix (Fin k) (Fin k) α)
    {dI dS : Nat} (c : Chain α) (innVector : Matrix (Fin dI) (Fin 1) α)
    (Py : Matrix (Fin dI) (Fin dI) α) (H : Matrix (Fin dI) (Fin dS) α) :
    Except Failure (Chain α × Matrix (Fin dI) (Fin dI) α × Matrix (Fin dI) (Fin dS) α) :=
  if doOutlierDetection.static_assert c dI then doOutlierDetection.body inverse c innVector Py H
  else .error .staticAssert

/-- The method `reset`. -/
def reset : Chain α → Chain α
  | .OutlierDetectionDefault base => .OutlierDetectionDefault base
  | .OutlierDetectionConcat base sub_ =>
      .OutlierDetectionConcat { base with outlier_ := false, outlierCount_ := 0 } (reset sub_)

/-- The method `isOutlier`. -/
def isOutlier : Chain α → Nat → Except Failure Bool
  | .OutlierDetectionDefault _, _ => .error .assert0
  | .OutlierDetectionConcat base sub_, i =>
      if i = 0 then .ok base.outlier_ else isOutlier sub_ (i - 1)

/-- The method `setEnabled`. -/
def setEnabled : Chain α → Nat → Bool → Except Failure (Chain α)
  | .OutlierDetectionDefault _, _, _ => .error .assert0
  | .OutlierDetectionConcat base sub_, i, enabled =>
      if i = 0 then .ok (.OutlierDetectionConcat { base with enabled_ := enabled } sub_)
      else (setEnabled sub_ (i - 1) enabled).map (.OutlierDetectionConcat base)

/-- The method `setEnabledAll`. -/
def setEnabledAll : Chain α → Bool → Chain α
  | .OutlierDetectionDefault base, _ => .OutlierDetectionDefault base
  | .OutlierDetectionConcat base sub_, enabled =>
      .OutlierDetectionConcat { base with enabled_ := enabled } (setEnabledAll sub_ enabled)

/-- The method `getCount` (the value behind the returned reference). -/
def getCount : Chain α → Nat → Except Failure Nat
  | .OutlierDetectionDefault _, _ => .error .assert0
  | .OutlierDetectionConcat base sub_, i =>
      if i = 0 then .ok base.outlierCount_ else getCount sub_ (i - 1)

/-- The method `getMahalTh` (the value behind the returned reference). -/
def getMahalTh : Chain α → Nat → Except Failure α
  | .OutlierDetectionDefault _, _ => .error .assert0
  | .OutlierDetectionConcat base sub_, i =>
      if i = 0 then .ok base.mahalanobisTh_ else getMahalTh sub_ (i - 1)

end Operations

/-! ## Model base -/

/-- Modelled from the spec: the manifold type contract required of `Input`, `Output`,
`Meas` and `Noise`, whose classes are not among the sources: the dimension `D_`,
the default-constructed value, `boxPlus`, `boxMinus`, `setIdentity` and
`setRandom`, each returning the value the source receives through an output
argument or leaves in the object. -/
structure ManifoldType (α : Type) (T : Type) where
  D_ : Nat
  init : T
  boxPlus : T → (Fin D_ → α) → T
  boxMinus : T → T → (Fin D_ → α)
  setIdentity : T → T
  setRandom : α → T → T

/-- The class `ModelBase<Input,Output,Meas,Noise>` as seen from a derived model: the
four manifold types and, for each virtual method, the override of the derived
class (`none` when the derived class does not override it). -/
structure ModelBase (α Input Output Meas Noise : Type) where
  mtInput : ManifoldType α Input
  mtOutput : ManifoldType α Output
  mtMeas : ManifoldType α Meas
  mtNoise : ManifoldType α Noise
  evalOverride : Option (Input → Meas → α → Output)
  evalNoiseOverride : Option (Input → Meas → Noise → α → Output)
  jacInputOverride :
    Option (Input → Meas → α → Matrix (Fin mtOutput.D_) (Fin mtInput.D_) α)
  jacNoiseOverride :
    Option (Input → Meas → α → Matrix (Fin mtOutput.D_) (Fin mtNoise.D_) α)

/-- What a Jacobian test prints. -/
inductive TestReport (α : Type) where
  /-- The line "Test failed: r is larger than th". -/
  | failed (r th : α)
  /-- The line "Test successful (r)". -/
  | successful (r : α)
  deriving DecidableEq

section Model

variable {α Input Output Meas Noise : Type} [LinearOrderedField α]

/-- Eigen: `M.maxCoeff()`, the largest coefficient; an empty matrix fails the
assertion of the visitor. -/
def maxCoeff {m n : Nat} (M : Matrix (Fin m) (Fin n) α) : Except Failure α :=
  match (List.finRange n).flatMap fun j => (List.finRange m).map fun i => M i j with
  | [] => .error .eigenAssert
  | x :: xs => .ok (xs.foldl max x)

/-- The virtual method `eval(input,meas,noise,dt)`; the base version returns a
default-constructed output. -/
def ModelBase.evalNoise (m : ModelBase α Input Output Meas Noise) (input : Input) (meas : Meas)
    (noise : Noise) (dt : α) : Output :=
  match m.evalNoiseOverride with
  | some f => f input meas noise dt
  | none => m.mtOutput.init

/-- The virtual method `eval(input,meas,dt)`; the base version sets a noise to
identity and calls the four-argument `eval`. -/
def ModelBase.eval (m : ModelBase α Input Output Meas Noise) (input : Input) (meas : Meas)
    (dt : α) : Output :=
  match m.evalOverride with
  | some f => f input meas dt
  | none =>
      let noise := m.mtNoise.setIdentity m.mtNoise.init
      m.evalNoise input meas noise dt

/-- The virtual method `jacInput`; the base version returns zero. -/
def ModelBase.jacInput (m : ModelBase α Input Output Meas Noise) (input : Input) (meas : Meas)
    (dt : α) : Matrix (Fin m.mtOutput.D_) (Fin m.mtInput.D_) α :=
  match m.jacInputOverride with
  | some f => f input meas dt
  | none => fun _ _ => 0

/-- The virtual method `jacNoise`; the base version returns zero. -/
def ModelBase.jacNoise (m : ModelBase α Input Output Meas Noise) (input : Input) (meas : Meas)
    (dt : α) : Matrix (Fin m.mtOutput.D_) (Fin m.mtNoise.D_) α :=
  match m.jacNoiseOverride with
  | some f => f input meas dt
  | none => fun _ _ => 0

/-- Eigen: the assignment `F.col(i) = x`. -/
def setCol {r c : Nat} (F : Matrix (Fin r) (Fin c) α) (i : Fin c) (x : Fin r → α) :
    Matrix (Fin r) (Fin c) α :=
  fun a b => if b = i then x a else F a b

/-- The local `outputReference` of `jacInputFD`. -/
def ModelBase.jacInputFD.outputReference (m : ModelBase α Input Output Meas Noise)
    (input : Input) (meas : Meas) (dt : α) : Output :=
  m.eval input meas dt

/-- The method `jacInputFD`. `F` is the content of the local `F` before the loop
(it is declared without an initialiser). -/
def ModelBase.jacInputFD (m : ModelBase α Input Output Meas Noise)
    (F : Matrix (Fin m.mtOutput.D_) (Fin m.mtInput.D_) α)
    (input : Input) (meas : Meas) (dt d : α) : Matrix (Fin m.mtOutput.D_) (Fin m.mtInput.D_) α :=
  let outputReference := ModelBase.jacInputFD.outputReference m input meas dt
  let I : Matrix (Fin m.mtInput.D_) (Fin m.mtInput.D_) α := 1
  (List.finRange m.mtInput.D_).foldl
    (fun F i =>
      let inputDisturbed := m.mtInput.boxPlus input (fun k => d * I k i)
      let dif := m.mtOutput.boxMinus (m.eval inputDisturbed meas dt) outputReference
      setCol F i (fun k => dif k / d))
    F

/-- The local `outputReference` of `jacNoiseFD`. -/
def ModelBase.jacNoiseFD.outputReference (m : ModelBase α Input Output Meas Noise)
    (input : Input) (meas : Meas) (dt : α) : Output :=
  let noise := m.mtNoise.setIdentity m.mtNoise.init
  m.evalNoise input meas noise dt

/-- The method `jacNoiseFD`. `H` is the content of the local `H` before the loop. -/
def ModelBase.jacNoiseFD (m : ModelBase α Input Output Meas Noise)
    (H : Matrix (Fin m.mtOutput.D_) (Fin m.mtNoise.D_) α)
    (input : Input) (meas : Meas) (dt d : α) : Matrix (Fin m.mtOutput.D_) (Fin m.mtNoise.D_) α :=
  let noise := m.mtNoise.setIdentity m.mtNoise.init
  let outputReference := ModelBase.jacNoiseFD.outputReference m input meas dt
  let I : Matrix (Fin m.mtNoise.D_) (Fin m.mtNoise.D_) α := 1
  (List.finRange m.mtNoise.D_).foldl
    (fun H i =>
      let noiseDisturbed := m.mtNoise.boxPlus noise (fun k => d * I k i)
      let dif := m.mtOutput.boxMinus (m.evalNoise input meas noiseDisturbed dt) outputReference
      setCol H i (fun k => dif k / d))
    H

/-- The method `testJacInput`, returning what it prints. -/
def ModelBase.testJacInput (m : ModelBase α Input Output Meas Noise)
    (F : Matrix (Fin m.mtOutput.D_) (Fin m.mtInput.D_) α) (d th s dt : α) :
    Except Failure (TestReport α) := do
  let input := m.mtInput.setRandom s m.mtInput.init
  let meas := m.mtMeas.setRandom s m.mtMeas.init
  let r ← maxCoeff (m.jacInput input meas dt - m.jacInputFD F input meas dt d)
  if r > th then .ok (.failed r th) else .ok (.successful r)

/-- The method `testJacNoise`, returning what it prints. -/
def ModelBase.testJacNoise (m : ModelBase α Input Output Meas Noise)
    (H : Matrix (Fin m.mtOutput.D_) (Fin m.mtNoise.D_) α) (d th s dt : α) :
    Except Failure (TestReport α) := do
  let input := m.mtInput.setRandom s m.mtInput.init
  let meas := m.mtMeas.setRandom s m.mtMeas.init
  let r ← maxCoeff (m.jacNoise input meas dt - m.jacNoiseFD H input meas dt d)
  if r > th then .ok (.failed r th) else .ok (.successful r)

/-- The method `testJacs`, returning the two reports in the order they are printed. -/
def ModelBase.testJacs (m : ModelBase α Input Output Meas Noise)
    (F : Matrix (Fin m.mtOutput.D_) (Fin m.mtInput.D_) α)
    (H : Matrix (Fin m.mtOutput.D_) (Fin m.mtNoise.D_) α) (d th s dt : α) :
    Except Failure (TestReport α × TestReport α) := do
  let r1 ← m.testJacInput F d th s dt
  let r2 ← m.testJacNoise H d th s dt
  .ok (r1, r2)

end Model

/-! ## Notions used in the statements -/

section Notions

variable {α : Type} [LinearOrderedField α]

/-- Eigen's `inverse()` in exact arithmetic: the adjugate divided by the
determinant. -/
def inverseExact (k : Nat) (M : Matrix (Fin k) (Fin k) α) : Matrix (Fin k) (Fin k) α :=
  (Matrix.det M)⁻¹ • Matrix.adjugate M

/-- The Mahalanobis distance of the block `[S, S+D)`:
`v[S:S+D]^T * inverse(Py[S:S+D, S:S+D]) * v[S:S+D]`. -/
def mahalanobisDistance
    (inverse : (k : Nat) → Matrix (Fin k) (Fin k) α → Matrix (Fin k) (Fin k) α) {E : Nat}
    (v : Matrix (Fin E) (Fin 1) α) (Py : Matrix (Fin E) (Fin E) α) (S D : Nat)
    (h : S + D ≤ E) : α :=
  ((slice v S 0 D 1 ⟨h, by omega⟩).transpose * inverse D (slice Py S S D D ⟨h, h⟩) *
    slice v S 0 D 1 ⟨h, by omega⟩) 0 0

/-- The innovation dimension `dI` is adequate for a chain: the range of every gate
lies inside `[0, dI)`. -/
def Chain.adequate (c : Chain α) (dI : Nat) : Prop :=
  ∀ g ∈ c.gates, g.S_ + g.D_ ≤ dI

/-- The index `r` lies in the range of a gate of the chain that is both flagged
and enabled. -/
def Chain.neutralised (c : Chain α) (r : Nat) : Prop :=
  ∃ g ∈ c.gates, g.outlier_ = true ∧ g.enabled_ = true ∧ g.S_ ≤ r ∧ r < g.S_ + g.D_

/-- The gate `g` after a check against `v` and `Py`, when its range lies inside
them. -/
def checkedGate
    (inverse : (k : Nat) → Matrix (Fin k) (Fin k) α → Matrix (Fin k) (Fin k) α) {E : Nat}
    (v : Matrix (Fin E) (Fin 1) α) (Py : Matrix (Fin E) (Fin E) α)
    (g : OutlierDetectionBase α) : OutlierDetectionBase α :=
  if h : g.S_ + g.D_ ≤ E then
    if mahalanobisDistance inverse v Py g.S_ g.D_ h > g.mahalanobisTh_ then
      { g with outlier_ := true, outlierCount_ := (g.outlierCount_ + 1) % UINT_MOD }
    else
      { g with outlier_ := false, outlierCount_ := 0 }
  else g

/-- A chain with every gate replaced by its image under `f`; the sentinel stays. -/
def Chain.mapGates (f : OutlierDetectionBase α → OutlierDetectionBase α) : Chain α → Chain α
  | .OutlierDetectionDefault base => .OutlierDetectionDefault base
  | .OutlierDetectionConcat base sub_ => .OutlierDetectionConcat (f base) (Chain.mapGates f sub_)

/-- The chain without its gate number `i` (the chain itself when it has no such
gate). -/
def Chain.eraseGate : Chain α → Nat → Chain α
  | .OutlierDetectionDefault base, _ => .OutlierDetectionDefault base
  | .OutlierDetectionConcat _ sub_, 0 => sub_
  | .OutlierDetectionConcat base sub_, i + 1 =>
      .OutlierDetectionConcat base (Chain.eraseGate sub_ i)

/-- `FlaggedPasses inverse dI dS i n c c1`: `n` consecutive passes of
`doOutlierDetection`, each on its own `innVector`, `Py` and `H`, lead from the
chain state `c` to the chain state `c1`, and every one of them flags gate `i`. -/
inductive FlaggedPasses
    (inverse : (k : Nat) → Matrix (Fin k) (Fin k) α → Matrix (Fin k) (Fin k) α)
    (dI dS : Nat) (i : Nat) : Nat → Chain α → Chain α → Prop where
  | zero (c : Chain α) : FlaggedPasses inverse dI dS i 0 c c
  | succ {n : Nat} {c c1 c2 : Chain α} (v : Matrix (Fin dI) (Fin 1) α)
      (Py Py2 : Matrix (Fin dI) (Fin dI) α) (H H2 : Matrix (Fin dI) (Fin dS) α) :
      FlaggedPasses inverse dI dS i n c c1 →
      doOutlierDetection inverse c1 v Py H = .ok (c2, Py2, H2) →
      isOutlier c2 i = .ok true →
      FlaggedPasses inverse dI dS i (n + 1) c c2

end Notions

/-- The ranges of the claim as it is worded: offset `S_j + k*D_j` and width `D_j`
for `k = 0 .. N_j - 1`, for the descriptors in list order. -/
def statedRanges (l : List ODEntry) : List (Nat × Nat) :=
  l.flatMap fun e => (List.range e.N).map fun k => (e.S_ + k * e.D_, e.D_)

/-- The same ranges with the offsets reduced to `unsigned int`. -/
def wrappedRanges (l : List ODEntry) : List (Nat × Nat) :=
  l.flatMap fun e => (List.range e.N).map fun k => ((e.S_ + k * e.D_) % UINT_MOD, e.D_)

/-- The ranges one descriptor expands to, following the template recursion. -/
def repeatRanges (S D : Nat) : Nat → List (Nat × Nat)
  | 0 => []
  | N + 1 => (S, D) :: repeatRanges ((S + D) % UINT_MOD) D N

/-- The index `x` lies in the range `[p.1, p.1 + p.2)`. -/
def inRange (p : Nat × Nat) (x : Nat) : Prop := p.1 ≤ x ∧ x < p.1 + p.2

/-- Every range of the list starts where the one before it ends. -/
def contiguousRanges : List (Nat × Nat) → Prop
  | [] => True
  | [_] => True
  | p :: q :: rest => q.1 = p.1 + p.2 ∧ contiguousRanges (q :: rest)

/-- No index belongs to the ranges of two different entries of the list. -/
def nonOverlappingRanges (rs : List (Nat × Nat)) : Prop :=
  ∀ (i j : Nat) (p q : Nat × Nat) (x : Nat), i ≠ j → rs[i]? = some p → rs[j]? = some q → ¬ (inRange p x ∧ inRange q x)

/-- The ranges of the list follow one another without a gap, the first one
starting at `s`. -/
def contiguousFrom : Nat → List (Nat × Nat) → Prop
  | _, [] => True
  | s, p :: rest => p.1 = s ∧ contiguousFrom (p.1 + p.2) rest

/-- The descriptors are laid out back to back inside the `unsigned int` range:
every descriptor starts where the blocks of the one before it end. -/
def backToBack : List ODEntry → Prop
  | [] => True
  | [e] => e.S_ + e.N * e.D_ ≤ UINT_MOD ∧ e.S_ < UINT_MOD
  | e :: f :: rest =>
      e.S_ + e.N * e.D_ ≤ UINT_MOD ∧ e.S_ < UINT_MOD ∧ f.S_ = e.S_ + e.N * e.D_ ∧
        backToBack (f :: rest)

/-- Step 4 of the spec for one gate: zero `Py[:, S:S+D]` and `Py[S:S+D, :]`, set
`Py[S:S+D, S:S+D]` to identity and zero `H[S:S+D, :]`. -/
def neutraliseBlock {α : Type} [LinearOrderedField α] {dI dS : Nat}
    (Py : Matrix (Fin dI) (Fin dI) α) (H : Matrix (Fin dI) (Fin dS) α) (S D : Nat) :
    Except Failure (Matrix (Fin dI) (Fin dI) α × Matrix (Fin dI) (Fin dS) α) := do
  let Py2 ← blockSetZero Py 0 S dI D
  let Py3 ← blockSetZero Py2 S 0 D dI
  let Py4 ← blockSetIdentity Py3 S S D D
  let H2 ← blockSetZero H S 0 D dS
  .ok (Py4, H2)

/-- The sequential procedure of the spec: the gates are visited in chain order;
each one is checked against the current `Py` and, if flagged and enabled,
neutralised, before the next gate is visited. -/
def doOutlierDetectionSequential {α : Type} [LinearOrderedField α]
    (inverse : (k : Nat) → Matrix (Fin k) (Fin k) α → Matrix (Fin k) (Fin k) α)
    {dI dS : Nat} :
    Chain α → Matrix (Fin dI) (Fin 1) α → Matrix (Fin dI) (Fin dI) α →
      Matrix (Fin dI) (Fin dS) α →
      Except Failure (Chain α × Matrix (Fin dI) (Fin dI) α × Matrix (Fin dI) (Fin dS) α)
  | .OutlierDetectionDefault base, _, Py, H => .ok (.OutlierDetectionDefault base, Py, H)
  | .OutlierDetectionConcat base sub_, innVector, Py, H => do
      let base1 ← check inverse base innVector Py
      let (Py1, H1) ←
        if base1.outlier_ && base1.enabled_ then neutraliseBlock Py H base1.S_ base1.D_
        else .ok (Py, H)
      let (sub1, Py2, H2) ← doOutlierDetectionSequential inverse sub_ innVector Py1 H1
      .ok (.OutlierDetectionConcat base1 sub1, Py2, H2)

/-- A chain with one gate whose range `[4294967295, 4294967297)` does not fit
`unsigned int`. -/
def exWrapChain : Chain ℚ :=
  OutlierDetectionConcat.init ℚ 4294967295 2 (OutlierDetectionDefault.init ℚ)

/-- Calling `setEnabled(i, enabled)` for `i = 0, ..., K - 1`, one after the other. -/
def setEnabledEach {α : Type} (c : Chain α) (K : Nat) (enabled : Bool) :
    Except Failure (Chain α) :=
  (List.range K).foldlM (fun c1 i => setEnabled c1 i enabled) c

/-- What a gate's decision can depend on: its range and its threshold. -/
def OutlierDetectionBase.configuration {α : Type} (g : OutlierDetectionBase α) :
    Nat × Nat × α :=
  (g.S_, g.D_, g.mahalanobisTh_)

/-! ## Example data -/

/-- A disabled gate on the range `[0, 2)`. -/
def exGate0 : OutlierDetectionBase ℚ :=
  { S_ := 0, D_ := 2, outlier_ := false, enabled_ := false, mahalanobisTh_ := 1 / 2,
    outlierCount_ := 0 }

/-- An enabled gate on the range `[2, 5)`. -/
def exGate1 : OutlierDetectionBase ℚ :=
  { S_ := 2, D_ := 3, outlier_ := false, enabled_ := true, mahalanobisTh_ := 4,
    outlierCount_ := 0 }

/-- The chain of the two gates `exGate0` and `exGate1`. -/
def exChain : Chain ℚ :=
  .OutlierDetectionConcat exGate0
    (.OutlierDetectionConcat exGate1 (OutlierDetectionDefault.init ℚ))

/-- An innovation vector of dimension 5. -/
def exV : Matrix (Fin 5) (Fin 1) ℚ := fun i _ => if i.val = 2 then 3 else 1

/-- A covariance of dimension 5 with non-zero cross terms. -/
def exPy : Matrix (Fin 5) (Fin 5) ℚ := fun i j => if i = j then 2 else 1 / 4

/-- An observation Jacobian with 5 rows and 2 columns. -/
def exH : Matrix (Fin 5) (Fin 2) ℚ := fun i j => (i.val : ℚ) + (j.val : ℚ) + 1

/-- A flat manifold type of dimension 1 over `ℚ`: `boxPlus` is the addition and
`boxMinus` the subtraction. -/
def exFlat : ManifoldType ℚ ℚ :=
  { D_ := 1
    init := 0
    boxPlus := fun x t => x + t 0
    boxMinus := fun a b => fun _ => a - b
    setIdentity := fun _ => 0
    setRandom := fun s _ => s }

/-- A model that overrides the four-argument `eval` by `2 * input + noise` and
`jacInput` by the constant 1, which is not the derivative of its `eval`. -/
def exModel : ModelBase ℚ ℚ ℚ ℚ ℚ :=
  { mtInput := exFlat
    mtOutput := exFlat
    mtMeas := exFlat
    mtNoise := exFlat
    evalOverride := none
    evalNoiseOverride := some fun input _ noise _ => 2 * input + noise
    jacInputOverride := some fun _ _ _ => fun _ _ => 1
    jacNoiseOverride := none }

/-- The largest absolute value of a coefficient: the comparison the claim about
`testJacInput` words. -/
def maxAbsCoeff {α : Type} [LinearOrderedField α] {m n : Nat} (M : Matrix (Fin m) (Fin n) α) :
    Except Failure α :=
  maxCoeff fun i j => |M i j|

/-! ## Outlier detection: one pass -/

section ChainLemmas

variable {α : Type}

theorem gates_mapGates (f : OutlierDetectionBase α → OutlierDetectionBase α) (c : Chain α) :
    (Chain.mapGates f c).gates = c.gates.map f := by
  induction c with
  | OutlierDetectionDefault base => rfl
  | OutlierDetectionConcat base sub_ ih => simp [Chain.mapGates, Chain.gates, ih]

theorem sentinel_mapGates (f : OutlierDetectionBase α → OutlierDetectionBase α) (c : Chain α) :
    (Chain.mapGates f c).sentinel = c.sentinel := by
  induction c with
  | OutlierDetectionDefault base => rfl
  | OutlierDetectionConcat base sub_ ih => simpa [Chain.mapGates, Chain.sentinel] using ih

theorem neutralised_default (base : OutlierDetectionBase α) (r : Nat) :
    ¬ (Chain.OutlierDetectionDefault base).neutralised r := by
  simp [Chain.neutralised, Chain.gates]

theorem neutralised_concat (base : OutlierDetectionBase α) (sub_ : Chain α) (r : Nat) :
    (Chain.OutlierDetectionConcat base sub_).neutralised r ↔
      (base.outlier_ = true ∧ base.enabled_ = true ∧ base.S_ ≤ r ∧ r < base.S_ + base.D_) ∨
        sub_.neutralised r := by
  simp [Chain.neutralised, Chain.gates]

theorem static_assert_of_adequate (c : Chain α) (dI : Nat) (hd : c.adequate dI) :
    doOutlierDetection.static_assert c dI = true := by
  induction c with
  | OutlierDetectionDefault base => rfl
  | OutlierDetectionConcat base sub_ ih =>
      have hb : base.S_ + base.D_ ≤ dI := hd base (by simp [Chain.gates])
      have hs : sub_.adequate dI := fun g hg => hd g (by simp [Chain.gates, hg])
      have hm : (base.S_ + base.D_) % UINT_MOD ≤ dI :=
        le_trans (Nat.mod_le _ _) hb
      simp [doOutlierDetection.static_assert, ih hs, hm]

theorem eraseGate_adequate (c : Chain α) (i dI : Nat) (hd : c.adequate dI) :
    (c.eraseGate i).adequate dI := by
  induction c generalizing i with
  | OutlierDetectionDefault base => exact hd
  | OutlierDetectionConcat base sub_ ih =>
      have hs : sub_.adequate dI := fun g hg => hd g (by simp [Chain.gates, hg])
      cases i with
      | zero => exact hs
      | succ j =>
          intro g hg
          simp only [Chain.eraseGate, Chain.gates, List.mem_cons] at hg
          rcases hg with rfl | hg
          · exact hd _ (by simp [Chain.gates])
          · exact ih j hs g hg

theorem neutralised_eraseGate (f : OutlierDetectionBase α → OutlierDetectionBase α)
    (c : Chain α) (i : Nat) (g : OutlierDetectionBase α) (hg : c.gates[i]? = some g)
    (hf : (f g).enabled_ = false) (x : Nat) :
    (Chain.mapGates f (c.eraseGate i)).neutralised x ↔ (Chain.mapGates f c).neutralised x := by
  induction c generalizing i with
  | OutlierDetectionDefault base => simp [Chain.gates] at hg
  | OutlierDetectionConcat base sub_ ih =>
      cases i with
      | zero =>
          simp only [Chain.gates, List.getElem?_cons_zero, Option.some.injEq] at hg
          subst hg
          simp only [Chain.eraseGate, Chain.mapGates, neutralised_concat, hf]
          simp
      | succ j =>
          simp only [Chain.gates, List.getElem?_cons_succ] at hg
          simp only [Chain.eraseGate, Chain.mapGates, neutralised_concat, ih j hg]

theorem adequate_of_configuration {dI : Nat} (c c2 : Chain α)
    (h : c.gates.map OutlierDetectionBase.configuration =
      c2.gates.map OutlierDetectionBase.configuration)
    (hd : c.adequate dI) : c2.adequate dI := by
  intro g2 hg2
  have hm : g2.configuration ∈ c2.gates.map OutlierDetectionBase.configuration :=
    List.mem_map_of_mem _ hg2
  rw [← h, List.mem_map] at hm
  obtain ⟨g, hg, he⟩ := hm
  simp only [OutlierDetectionBase.configuration, Prod.mk.injEq] at he
  rw [← he.1, ← he.2.1]
  exact hd g hg

theorem mapGates_congr (f f2 : OutlierDetectionBase α → OutlierDetectionBase α) (c : Chain α)
    (h : ∀ g ∈ c.gates, f g = f2 g) : Chain.mapGates f c = Chain.mapGates f2 c := by
  induction c with
  | OutlierDetectionDefault base => rfl
  | OutlierDetectionConcat base sub_ ih =>
      simp only [Chain.mapGates]
      rw [h base (by simp [Chain.gates]), ih (fun g hg => h g (by simp [Chain.gates, hg]))]

end ChainLemmas

section Pass

variable {α : Type} [LinearOrderedField α]
variable (inverse : (k : Nat) → Matrix (Fin k) (Fin k) α → Matrix (Fin k) (Fin k) α)

theorem check_eq {E : Nat} (g : OutlierDetectionBase α) (v : Matrix (Fin E) (Fin 1) α)
    (Py : Matrix (Fin E) (Fin E) α) (h : g.S_ + g.D_ ≤ E) :
    check inverse g v Py = .ok (checkedGate inverse v Py g) := by
  have h1 : g.S_ + g.D_ ≤ E ∧ 0 + 1 ≤ 1 := ⟨h, by omega⟩
  have h2 : g.S_ + g.D_ ≤ E ∧ g.S_ + g.D_ ≤ E := ⟨h, h⟩
  simp only [check, block, dif_pos h1, dif_pos h2, checkedGate, dif_pos h, mahalanobisDistance,
    bind, Except.bind]
  by_cases hd : ((slice v g.S_ 0 g.D_ 1 h1).transpose * inverse g.D_ (slice Py g.S_ g.S_ g.D_ g.D_ h2) *
      slice v g.S_ 0 g.D_ 1 h1) 0 0 > g.mahalanobisTh_
  · simp [hd]
  · simp [hd]

theorem checkedGate_S {E : Nat} (v : Matrix (Fin E) (Fin 1) α) (Py : Matrix (Fin E) (Fin E) α)
    (g : OutlierDetectionBase α) : (checkedGate inverse v Py g).S_ = g.S_ := by
  unfold checkedGate
  split_ifs <;> rfl

theorem checkedGate_D {E : Nat} (v : Matrix (Fin E) (Fin 1) α) (Py : Matrix (Fin E) (Fin E) α)
    (g : OutlierDetectionBase α) : (checkedGate inverse v Py g).D_ = g.D_ := by
  unfold checkedGate
  split_ifs <;> rfl

theorem checkedGate_enabled {E : Nat} (v : Matrix (Fin E) (Fin 1) α)
    (Py : Matrix (Fin E) (Fin E) α) (g : OutlierDetectionBase α) :
    (checkedGate inverse v Py g).enabled_ = g.enabled_ := by
  unfold checkedGate
  split_ifs <;> rfl

theorem checkedGate_mahalanobisTh {E : Nat} (v : Matrix (Fin E) (Fin 1) α)
    (Py : Matrix (Fin E) (Fin E) α) (g : OutlierDetectionBase α) :
    (checkedGate inverse v Py g).mahalanobisTh_ = g.mahalanobisTh_ := by
  unfold checkedGate
  split_ifs <;> rfl

/-- One pass over a chain of adequate dimension returns: the gates are the
checked gates, and `Py` and `H` are neutralised exactly on the ranges of the
flagged and enabled gates. -/
theorem body_spec {dI dS : Nat} (c : Chain α) (v : Matrix (Fin dI) (Fin 1) α)
    (Py : Matrix (Fin dI) (Fin dI) α) (H : Matrix (Fin dI) (Fin dS) α)
    (hd : c.adequate dI) :
    ∃ Py1 H1, doOutlierDetection.body inverse c v Py H =
        .ok (Chain.mapGates (checkedGate inverse v Py) c, Py1, H1) ∧
      (∀ r k : Fin dI,
        ((Chain.mapGates (checkedGate inverse v Py) c).neutralised r.val ∨
            (Chain.mapGates (checkedGate inverse v Py) c).neutralised k.val →
          Py1 r k = if r = k then 1 else 0) ∧
        (¬ (Chain.mapGates (checkedGate inverse v Py) c).neutralised r.val →
          ¬ (Chain.mapGates (checkedGate inverse v Py) c).neutralised k.val →
          Py1 r k = Py r k)) ∧
      (∀ (r : Fin dI) (k : Fin dS),
        ((Chain.mapGates (checkedGate inverse v Py) c).neutralised r.val → H1 r k = 0) ∧
        (¬ (Chain.mapGates (checkedGate inverse v Py) c).neutralised r.val → H1 r k = H r k)) := by
  induction c with
  | OutlierDetectionDefault base =>
      refine ⟨Py, H, rfl, ?_, ?_⟩
      · intro r k
        simp [Chain.mapGates, neutralised_default]
      · intro r k
        simp [Chain.mapGates, neutralised_default]
  | OutlierDetectionConcat base sub_ ih =>
      have hb : base.S_ + base.D_ ≤ dI := hd base (by simp [Chain.gates])
      have hs : sub_.adequate dI := fun g hg => hd g (by simp [Chain.gates, hg])
      obtain ⟨Py1, H1, hrun, hPy, hH⟩ := ih hs
      have hS := checkedGate_S inverse v Py base
      have hD := checkedGate_D inverse v Py base
      by_cases hfe : ((checkedGate inverse v Py base).outlier_ &&
          (checkedGate inverse v Py base).enabled_) = true
      · have hb1 : 0 + dI ≤ dI ∧ base.S_ + base.D_ ≤ dI := ⟨by omega, hb⟩
        have hb2 : base.S_ + base.D_ ≤ dI ∧ 0 + dI ≤ dI := ⟨hb, by omega⟩
        have hb3 : base.S_ + base.D_ ≤ dI ∧ base.S_ + base.D_ ≤ dI := ⟨hb, hb⟩
        have hb4 : base.S_ + base.D_ ≤ dI ∧ 0 + dS ≤ dS := ⟨hb, by omega⟩
        have hfe2 := hfe
        simp only [Bool.and_eq_true] at hfe2
        refine ⟨fun r c =>
            if base.S_ ≤ r.val ∧ r.val < base.S_ + base.D_ ∧
                base.S_ ≤ c.val ∧ c.val < base.S_ + base.D_ then
              if r.val - base.S_ = c.val - base.S_ then 1 else 0
            else
              if base.S_ ≤ r.val ∧ r.val < base.S_ + base.D_ ∧ 0 ≤ c.val ∧ c.val < 0 + dI then 0
              else if 0 ≤ r.val ∧ r.val < 0 + dI ∧
                  base.S_ ≤ c.val ∧ c.val < base.S_ + base.D_ then 0 else Py1 r c,
          fun r c =>
            if base.S_ ≤ r.val ∧ r.val < base.S_ + base.D_ ∧ 0 ≤ c.val ∧ c.val < 0 + dS then 0
            else H1 r c, ?_, ?_, ?_⟩
        · simp only [doOutlierDetection.body, check_eq inverse base v Py hb, hrun, bind,
            Except.bind, hfe, if_true, blockSetZero, blockSetIdentity, hS, hD, if_pos hb1,
            if_pos hb2, if_pos hb3, if_pos hb4, Chain.mapGates]
        · intro r k
          have h1 := (hPy r k).1
          have h2 := (hPy r k).2
          simp only [Chain.mapGates, neutralised_concat, hS, hD, hfe2.1, hfe2.2, true_and]
          constructor
          · intro hor
            by_cases hr : base.S_ ≤ r.val ∧ r.val < base.S_ + base.D_ <;>
              by_cases hk : base.S_ ≤ k.val ∧ k.val < base.S_ + base.D_
            · have : (r.val - base.S_ = k.val - base.S_) ↔ r = k := by
                rw [Fin.ext_iff]; omega
              simp [hr, hk, this]
            · have : r ≠ k := by
                intro h; apply hk; rw [← h]; exact hr
              simp [hr, hk, this]
            · have : r ≠ k := by
                intro h; apply hr; rw [h]; exact hk
              simp [hr, hk, this]
            · have hor2 : (Chain.mapGates (checkedGate inverse v Py) sub_).neutralised r.val ∨
                  (Chain.mapGates (checkedGate inverse v Py) sub_).neutralised k.val := by
                rcases hor with (h | h) | (h | h)
                · exact absurd h hr
                · exact Or.inl h
                · exact absurd h hk
                · exact Or.inr h
              simp [hr, hk, h1 hor2]
          · intro hr hk
            have hr1 : ¬ (base.S_ ≤ r.val ∧ r.val < base.S_ + base.D_) := fun h => hr (Or.inl h)
            have hk1 : ¬ (base.S_ ≤ k.val ∧ k.val < base.S_ + base.D_) := fun h => hk (Or.inl h)
            simp [hr1, hk1, h2 (fun h => hr (Or.inr h)) (fun h => hk (Or.inr h))]
        · intro r k
          have h1 := (hH r k).1
          have h2 := (hH r k).2
          simp only [Chain.mapGates, neutralised_concat, hS, hD, hfe2.1, hfe2.2, true_and]
          constructor
          · intro hor
            by_cases hr : base.S_ ≤ r.val ∧ r.val < base.S_ + base.D_
            · simp [hr]
            · rcases hor with h | h
              · exact absurd h hr
              · simp [hr, h1 h]
          · intro hr
            have hr1 : ¬ (base.S_ ≤ r.val ∧ r.val < base.S_ + base.D_) := fun h => hr (Or.inl h)
            simp [hr1, h2 (fun h => hr (Or.inr h))]
      · have hne : ¬ ((checkedGate inverse v Py base).outlier_ = true ∧
            (checkedGate inverse v Py base).enabled_ = true) := by
          simpa [Bool.and_eq_true] using hfe
        have hiff : ∀ x : Nat,
            (Chain.mapGates (checkedGate inverse v Py)
              (Chain.OutlierDetectionConcat base sub_)).neutralised x ↔
            (Chain.mapGates (checkedGate inverse v Py) sub_).neutralised x := by
          intro x
          simp only [Chain.mapGates, neutralised_concat]
          constructor
          · rintro (h | h)
            · exact absurd ⟨h.1, h.2.1⟩ hne
            · exact h
          · exact Or.inr
        refine ⟨Py1, H1, ?_, ?_, ?_⟩
        · simp only [doOutlierDetection.body, check_eq inverse base v Py hb, hrun, bind,
            Except.bind, hfe, Chain.mapGates]
          simp
        · intro r k
          rw [hiff, hiff]
          exact hPy r k
        · intro r k
          rw [hiff]
          exact hH r k

theorem doOutlierDetection_eq_body {dI dS : Nat} (c : Chain α) (v : Matrix (Fin dI) (Fin 1) α)
    (Py : Matrix (Fin dI) (Fin dI) α) (H : Matrix (Fin dI) (Fin dS) α)
    (hd : c.adequate dI) :
    doOutlierDetection inverse c v Py H = doOutlierDetection.body inverse c v Py H := by
  simp [doOutlierDetection, static_assert_of_adequate c dI hd]

theorem check_ok_range {E : Nat} (g g1 : OutlierDetectionBase α) (v : Matrix (Fin E) (Fin 1) α)
    (Py : Matrix (Fin E) (Fin E) α) (h : check inverse g v Py = .ok g1) :
    g.S_ + g.D_ ≤ E := by
  by_contra hn
  simp [check, block, dif_neg hn, bind, Except.bind] at h

/-- A pass that returns was run on a chain of adequate dimension. -/
theorem body_ok_adequate {dI dS : Nat} (c : Chain α) (v : Matrix (Fin dI) (Fin 1) α)
    (Py : Matrix (Fin dI) (Fin dI) α) (H : Matrix (Fin dI) (Fin dS) α)
    (r : Chain α × Matrix (Fin dI) (Fin dI) α × Matrix (Fin dI) (Fin dS) α)
    (h : doOutlierDetection.body inverse c v Py H = .ok r) : c.adequate dI := by
  induction c generalizing r with
  | OutlierDetectionDefault base =>
      intro g hg
      simp [Chain.gates] at hg
  | OutlierDetectionConcat base sub_ ih =>
      simp only [doOutlierDetection.body, bind, Except.bind] at h
      cases hc : check inverse base v Py with
      | error e => simp [hc] at h
      | ok base1 =>
          cases hsub : doOutlierDetection.body inverse sub_ v Py H with
          | error e => simp [hc, hsub] at h
          | ok r1 =>
              intro g hg
              simp only [Chain.gates, List.mem_cons] at hg
              rcases hg with rfl | hg
              · exact check_ok_range inverse _ base1 v Py hc
              · exact ih r1 hsub g hg

theorem doOutlierDetection_ok_adequate {dI dS : Nat} (c : Chain α)
    (v : Matrix (Fin dI) (Fin 1) α) (Py : Matrix (Fin dI) (Fin dI) α)
    (H : Matrix (Fin dI) (Fin dS) α)
    (r : Chain α × Matrix (Fin dI) (Fin dI) α × Matrix (Fin dI) (Fin dS) α)
    (h : doOutlierDetection inverse c v Py H = .ok r) : c.adequate dI := by
  unfold doOutlierDetection at h
  split_ifs at h
  exact body_ok_adequate inverse c v Py H r h

end Pass

/-! ## C1: the decision of a gate -/

section Decision

variable {α : Type} [LinearOrderedField α]
variable (inverse : (k : Nat) → Matrix (Fin k) (Fin k) α → Matrix (Fin k) (Fin k) α)

theorem exChain_adequate : exChain.adequate 5 := by
  intro g hg
  simp only [exChain, OutlierDetectionDefault.init, Chain.gates, List.mem_cons,
    List.mem_singleton, List.not_mem_nil, or_false] at hg
  rcases hg with rfl | rfl <;> decide

/-- C1: for every chain, every gate `g` of it (number `i`, range
`[g.S_, g.S_ + g.D_)`) and every `v`, `Py`, `H` of adequate dimension,
`doOutlierDetection` returns, the gate keeps its range, and its `outlier_` flag
is true exactly when the Mahalanobis distance of its block, computed from the
`Py` that was passed in, is strictly greater than its `mahalanobisTh_`. -/
theorem C1_outlier_iff_distance_exceeds_threshold {dI dS : Nat} (c : Chain α)
    (v : Matrix (Fin dI) (Fin 1) α) (Py : Matrix (Fin dI) (Fin dI) α)
    (H : Matrix (Fin dI) (Fin dS) α) (hd : c.adequate dI)
    (i : Nat) (g : OutlierDetectionBase α) (hg : c.gates[i]? = some g)
    (h : g.S_ + g.D_ ≤ dI) :
    ∃ c1 Py1 H1 g1, doOutlierDetection inverse c v Py H = .ok (c1, Py1, H1) ∧
      c1.gates[i]? = some g1 ∧ g1.S_ = g.S_ ∧ g1.D_ = g.D_ ∧
      (g1.outlier_ = true ↔
        mahalanobisDistance inverse v Py g.S_ g.D_ h > g.mahalanobisTh_) := by
  obtain ⟨Py1, H1, hrun, -, -⟩ := body_spec inverse c v Py H hd
  refine ⟨Chain.mapGates (checkedGate inverse v Py) c, Py1, H1, checkedGate inverse v Py g,
    ?_, ?_, ?_, ?_, ?_⟩
  · rw [doOutlierDetection_eq_body inverse c v Py H hd, hrun]
  · rw [gates_mapGates, List.getElem?_map, hg]
    rfl
  · exact checkedGate_S inverse v Py g
  · exact checkedGate_D inverse v Py g
  · unfold checkedGate
    rw [dif_pos h]
    split_ifs with hgt
    · simp [hgt]
    · simp [hgt]

/-- C1 at the second gate of the example chain. -/
theorem C1_outlier_iff_distance_exceeds_threshold_witness :
    exChain.adequate 5 ∧ exChain.gates[1]? = some exGate1 ∧
    ∃ c1 Py1 H1 g1, doOutlierDetection inverseExact exChain exV exPy exH = .ok (c1, Py1, H1) ∧
      c1.gates[1]? = some g1 ∧ g1.S_ = exGate1.S_ ∧ g1.D_ = exGate1.D_ ∧
      (g1.outlier_ = true ↔
        mahalanobisDistance inverseExact exV exPy exGate1.S_ exGate1.D_ (by decide) >
          exGate1.mahalanobisTh_) :=
  ⟨exChain_adequate, rfl,
    C1_outlier_iff_distance_exceeds_threshold inverseExact exChain exV exPy exH
      exChain_adequate 1 exGate1 rfl (by decide)⟩

end Decision

/-! ## C2: neutralisation of the flagged and enabled blocks -/

section Neutralisation

variable {α : Type} [LinearOrderedField α]
variable (inverse : (k : Nat) → Matrix (Fin k) (Fin k) α → Matrix (Fin k) (Fin k) α)

/-- C2: for every chain and every `v`, `Py`, `H` of adequate dimension
`doOutlierDetection` returns, and with `R` the set of the indices in the range
of a gate that is flagged and enabled after the pass: `Py1 r k` is `1` for
`r = k` and `0` otherwise whenever `r` or `k` is in `R`, and is `Py r k` when
neither is; row `r` of `H1` is zero when `r` is in `R` and row `r` of `H`
otherwise. In particular, for a chain of two gates with ranges `[0,2)` and
`[2,5)` of which only the second is flagged and enabled, `Py[0:2,0:2]` and
`H[0:2,:]` are unmodified, `Py[2:5,2:5]` is the identity, `Py[0:2,2:5]`,
`Py[2:5,0:2]` and `H[2:5,:]` are zero. -/
theorem C2_neutralisation_of_flagged_enabled_blocks {dI dS : Nat} (c : Chain α)
    (v : Matrix (Fin dI) (Fin 1) α) (Py : Matrix (Fin dI) (Fin dI) α)
    (H : Matrix (Fin dI) (Fin dS) α) (hd : c.adequate dI) :
    ∃ c1 Py1 H1, doOutlierDetection inverse c v Py H = .ok (c1, Py1, H1) ∧
      (∀ r k : Fin dI,
        (c1.neutralised r.val ∨ c1.neutralised k.val → Py1 r k = if r = k then 1 else 0) ∧
        (¬ c1.neutralised r.val → ¬ c1.neutralised k.val → Py1 r k = Py r k)) ∧
      (∀ (r : Fin dI) (k : Fin dS),
        (c1.neutralised r.val → H1 r k = 0) ∧ (¬ c1.neutralised r.val → H1 r k = H r k)) ∧
      (∀ g0 g1 s, c1 = .OutlierDetectionConcat g0 (.OutlierDetectionConcat g1
            (.OutlierDetectionDefault s)) →
          g0.S_ = 0 → g0.D_ = 2 → g1.S_ = 2 → g1.D_ = 3 →
          (g0.outlier_ && g0.enabled_) = false → (g1.outlier_ && g1.enabled_) = true →
        (∀ r k : Fin dI, r.val < 2 → k.val < 2 → Py1 r k = Py r k) ∧
        (∀ (r : Fin dI) (k : Fin dS), r.val < 2 → H1 r k = H r k) ∧
        (∀ r k : Fin dI, 2 ≤ r.val → r.val < 5 → 2 ≤ k.val → k.val < 5 →
          Py1 r k = if r = k then 1 else 0) ∧
        (∀ r k : Fin dI, r.val < 2 → 2 ≤ k.val → k.val < 5 → Py1 r k = 0) ∧
        (∀ r k : Fin dI, 2 ≤ r.val → r.val < 5 → k.val < 2 → Py1 r k = 0) ∧
        (∀ (r : Fin dI) (k : Fin dS), 2 ≤ r.val → r.val < 5 → H1 r k = 0)) := by
  obtain ⟨Py1, H1, hrun, hPy, hH⟩ := body_spec inverse c v Py H hd
  refine ⟨Chain.mapGates (checkedGate inverse v Py) c, Py1, H1, ?_, hPy, hH, ?_⟩
  · rw [doOutlierDetection_eq_body inverse c v Py H hd, hrun]
  · intro g0 g1 s hc hS0 hD0 hS1 hD1 hf0 hf1
    have hN : ∀ x : Nat,
        (Chain.mapGates (checkedGate inverse v Py) c).neutralised x ↔ 2 ≤ x ∧ x < 5 := by
      intro x
      have hf0n : ¬ (g0.outlier_ = true ∧ g0.enabled_ = true) := by
        simpa [Bool.and_eq_true] using hf0
      have hf1y : g1.outlier_ = true ∧ g1.enabled_ = true := by
        simpa [Bool.and_eq_true] using hf1
      rw [hc, neutralised_concat, neutralised_concat]
      simp only [hS1, hD1, hf1y.1, hf1y.2, true_and]
      constructor
      · rintro (h | h | h)
        · exact absurd ⟨h.1, h.2.1⟩ hf0n
        · omega
        · exact absurd h (neutralised_default s x)
      · intro h
        exact Or.inr (Or.inl h)
    refine ⟨?_, ?_, ?_, ?_, ?_, ?_⟩
    · intro r k hr hk
      exact (hPy r k).2 (by rw [hN]; omega) (by rw [hN]; omega)
    · intro r k hr
      exact (hH r k).2 (by rw [hN]; omega)
    · intro r k hr1 hr2 hk1 hk2
      exact (hPy r k).1 (Or.inl (by rw [hN]; omega))
    · intro r k hr hk1 hk2
      have hne : r ≠ k := by
        intro h; rw [h] at hr; omega
      rw [(hPy r k).1 (Or.inr (by rw [hN]; omega)), if_neg hne]
    · intro r k hr1 hr2 hk
      have hne : r ≠ k := by
        intro h; rw [h] at hr1; omega
      rw [(hPy r k).1 (Or.inl (by rw [hN]; omega)), if_neg hne]
    · intro r k hr1 hr2
      exact (hH r k).1 (by rw [hN]; omega)

/-- C2 at the example chain, whose second gate only is flagged and enabled. -/
theorem C2_neutralisation_of_flagged_enabled_blocks_witness :
    exChain.adequate 5 ∧
    ∃ c1 Py1 H1, doOutlierDetection inverseExact exChain exV exPy exH = .ok (c1, Py1, H1) ∧
      (∀ r k : Fin 5, r.val < 2 → k.val < 2 → Py1 r k = exPy r k) ∧
      (∀ (r : Fin 5) (k : Fin 2), r.val < 2 → H1 r k = exH r k) ∧
      (∀ r k : Fin 5, 2 ≤ r.val → r.val < 5 → 2 ≤ k.val → k.val < 5 →
        Py1 r k = if r = k then 1 else 0) ∧
      (∀ r k : Fin 5, r.val < 2 → 2 ≤ k.val → k.val < 5 → Py1 r k = 0) ∧
      (∀ r k : Fin 5, 2 ≤ r.val → r.val < 5 → k.val < 2 → Py1 r k = 0) ∧
      (∀ (r : Fin 5) (k : Fin 2), 2 ≤ r.val → r.val < 5 → H1 r k = 0) := by
  refine ⟨exChain_adequate, ?_⟩
  obtain ⟨c1, Py1, H1, hrun, -, -, hpart⟩ :=
    C2_neutralisation_of_flagged_enabled_blocks inverseExact exChain exV exPy exH
      exChain_adequate
  obtain ⟨Py2, H2, hbody, -, -⟩ := body_spec inverseExact exChain exV exPy exH exChain_adequate
  rw [doOutlierDetection_eq_body inverseExact exChain exV exPy exH exChain_adequate,
    hbody] at hrun
  have hc : c1 = Chain.mapGates (checkedGate inverseExact exV exPy) exChain := by
    injection hrun with h
    exact (congrArg Prod.fst h).symm
  refine ⟨c1, Py1, H1, ?_, ?_⟩
  · rw [doOutlierDetection_eq_body inverseExact exChain exV exPy exH exChain_adequate,
      hbody, hrun]
  · exact hpart (checkedGate inverseExact exV exPy exGate0)
      (checkedGate inverseExact exV exPy exGate1) (OutlierDetectionBase.init ℚ 0 0)
      hc (by decide!) (by decide!) (by decide!) (by decide!) (by decide!) (by decide!)

end Neutralisation

/-! ## C3: a disabled gate -/

section Disabled

variable {α : Type} [LinearOrderedField α]
variable (inverse : (k : Nat) → Matrix (Fin k) (Fin k) α → Matrix (Fin k) (Fin k) α)

/-- The result of a pass is determined by the set of neutralised indices. -/
theorem neutralisation_unique {dI dS : Nat} (N1 N2 : Nat → Prop) (hN : ∀ x, N1 x ↔ N2 x)
    (Py Py1 Py2 : Matrix (Fin dI) (Fin dI) α) (H H1 H2 : Matrix (Fin dI) (Fin dS) α)
    (hPy1 : ∀ r k : Fin dI,
      (N1 r.val ∨ N1 k.val → Py1 r k = if r = k then 1 else 0) ∧
      (¬ N1 r.val → ¬ N1 k.val → Py1 r k = Py r k))
    (hPy2 : ∀ r k : Fin dI,
      (N2 r.val ∨ N2 k.val → Py2 r k = if r = k then 1 else 0) ∧
      (¬ N2 r.val → ¬ N2 k.val → Py2 r k = Py r k))
    (hH1 : ∀ (r : Fin dI) (k : Fin dS),
      (N1 r.val → H1 r k = 0) ∧ (¬ N1 r.val → H1 r k = H r k))
    (hH2 : ∀ (r : Fin dI) (k : Fin dS),
      (N2 r.val → H2 r k = 0) ∧ (¬ N2 r.val → H2 r k = H r k)) :
    Py1 = Py2 ∧ H1 = H2 := by
  constructor
  · funext r k
    by_cases h : N1 r.val ∨ N1 k.val
    · rw [(hPy1 r k).1 h, (hPy2 r k).1 (by rwa [← hN, ← hN])]
    · have hr : ¬ N1 r.val := fun hx => h (Or.inl hx)
      have hk : ¬ N1 k.val := fun hx => h (Or.inr hx)
      rw [(hPy1 r k).2 hr hk, (hPy2 r k).2 (by rwa [← hN]) (by rwa [← hN])]
  · funext r k
    by_cases h : N1 r.val
    · rw [(hH1 r k).1 h, (hH2 r k).1 (by rwa [← hN])]
    · rw [(hH1 r k).2 h, (hH2 r k).2 (by rwa [← hN])]

/-- C3: in a pass over a chain (of adequate dimension, so that the pass returns),
a gate with `enabled_ = false` whose distance exceeds its threshold gets
`outlier_ = true` and its `outlierCount_` incremented by one (as an
`unsigned int`), and it writes nothing to `Py` or `H`: the pass leaves the same
`Py` and `H` as the pass over the chain without this gate. Hence, when every gate
is disabled, `Py` and `H` after the pass are those before it. -/
theorem C3_disabled_gate_flags_but_does_not_write {dI dS : Nat} (c : Chain α)
    (v : Matrix (Fin dI) (Fin 1) α) (Py : Matrix (Fin dI) (Fin dI) α)
    (H : Matrix (Fin dI) (Fin dS) α) (hd : c.adequate dI) :
    ∃ c1 Py1 H1, doOutlierDetection inverse c v Py H = .ok (c1, Py1, H1) ∧
      (∀ i g, c.gates[i]? = some g → g.enabled_ = false →
        ∃ g1, c1.gates[i]? = some g1 ∧ g1.enabled_ = false ∧
          (∀ h : g.S_ + g.D_ ≤ dI,
            mahalanobisDistance inverse v Py g.S_ g.D_ h > g.mahalanobisTh_ →
              g1.outlier_ = true ∧ g1.outlierCount_ = (g.outlierCount_ + 1) % UINT_MOD) ∧
          ∃ c2, doOutlierDetection inverse (c.eraseGate i) v Py H = .ok (c2, Py1, H1)) ∧
      ((∀ g ∈ c.gates, g.enabled_ = false) → Py1 = Py ∧ H1 = H) := by
  obtain ⟨Py1, H1, hrun, hPy, hH⟩ := body_spec inverse c v Py H hd
  refine ⟨Chain.mapGates (checkedGate inverse v Py) c, Py1, H1, ?_, ?_, ?_⟩
  · rw [doOutlierDetection_eq_body inverse c v Py H hd, hrun]
  · intro i g hg hen
    refine ⟨checkedGate inverse v Py g, ?_, ?_, ?_, ?_⟩
    · rw [gates_mapGates, List.getElem?_map, hg]
      rfl
    · rw [checkedGate_enabled, hen]
    · intro h hgt
      unfold checkedGate
      rw [dif_pos h, if_pos hgt]
      exact ⟨rfl, rfl⟩
    · have hde := eraseGate_adequate c i dI hd
      obtain ⟨Py2, H2, hrun2, hPy2, hH2⟩ := body_spec inverse (c.eraseGate i) v Py H hde
      have hen1 : (checkedGate inverse v Py g).enabled_ = false := by
        rw [checkedGate_enabled, hen]
      obtain ⟨e1, e2⟩ := neutralisation_unique _ _
        (neutralised_eraseGate (checkedGate inverse v Py) c i g hg hen1)
        Py Py2 Py1 H H2 H1 hPy2 hPy hH2 hH
      refine ⟨Chain.mapGates (checkedGate inverse v Py) (c.eraseGate i), ?_⟩
      rw [doOutlierDetection_eq_body inverse _ v Py H hde, hrun2, e1, e2]
  · intro hall
    have hno : ∀ x, ¬ (Chain.mapGates (checkedGate inverse v Py) c).neutralised x := by
      rintro x ⟨g1, hg1, -, hen, -⟩
      rw [gates_mapGates, List.mem_map] at hg1
      obtain ⟨g, hg, rfl⟩ := hg1
      rw [checkedGate_enabled, hall g hg] at hen
      exact Bool.false_ne_true hen
    constructor
    · funext r k
      exact (hPy r k).2 (hno _) (hno _)
    · funext r k
      exact (hH r k).2 (hno _)

/-- C3 at the example chain, whose first gate is disabled and has a distance above
its threshold. -/
theorem C3_disabled_gate_flags_but_does_not_write_witness :
    exChain.adequate 5 ∧ exChain.gates[0]? = some exGate0 ∧ exGate0.enabled_ = false ∧
    mahalanobisDistance inverseExact exV exPy exGate0.S_ exGate0.D_ (by decide) >
      exGate0.mahalanobisTh_ ∧
    ∃ c1 Py1 H1, doOutlierDetection inverseExact exChain exV exPy exH = .ok (c1, Py1, H1) ∧
      ∃ g1, c1.gates[0]? = some g1 ∧ g1.enabled_ = false ∧
        g1.outlier_ = true ∧ g1.outlierCount_ = 1 ∧
        ∃ c2, doOutlierDetection inverseExact (exChain.eraseGate 0) exV exPy exH =
          .ok (c2, Py1, H1) := by
  refine ⟨exChain_adequate, rfl, rfl, by decide!, ?_⟩
  obtain ⟨c1, Py1, H1, hrun, hA, -⟩ :=
    C3_disabled_gate_flags_but_does_not_write inverseExact exChain exV exPy exH
      exChain_adequate
  obtain ⟨g1, h1, h2, h4, h3⟩ := hA 0 exGate0 rfl rfl
  obtain ⟨h5, h6⟩ := h4 (by decide) (by decide!)
  exact ⟨c1, Py1, H1, hrun, g1, h1, h2, h5, h6, h3⟩

end Disabled

/-! ## Queries by gate number -/

section Queries

variable {α : Type}

theorem isOutlier_eq (c : Chain α) (i : Nat) :
    isOutlier c i = match c.gates[i]? with
      | some g => .ok g.outlier_
      | none => .error .assert0 := by
  induction c generalizing i with
  | OutlierDetectionDefault base => simp [isOutlier, Chain.gates]
  | OutlierDetectionConcat base sub_ ih =>
      cases i with
      | zero => simp [isOutlier, Chain.gates]
      | succ j => simp [isOutlier, Chain.gates, ih j]

theorem getCount_eq (c : Chain α) (i : Nat) :
    getCount c i = match c.gates[i]? with
      | some g => .ok g.outlierCount_
      | none => .error .assert0 := by
  induction c generalizing i with
  | OutlierDetectionDefault base => simp [getCount, Chain.gates]
  | OutlierDetectionConcat base sub_ ih =>
      cases i with
      | zero => simp [getCount, Chain.gates]
      | succ j => simp [getCount, Chain.gates, ih j]

theorem getMahalTh_eq (c : Chain α) (i : Nat) :
    getMahalTh c i = match c.gates[i]? with
      | some g => .ok g.mahalanobisTh_
      | none => .error .assert0 := by
  induction c generalizing i with
  | OutlierDetectionDefault base => simp [getMahalTh, Chain.gates]
  | OutlierDetectionConcat base sub_ ih =>
      cases i with
      | zero => simp [getMahalTh, Chain.gates]
      | succ j => simp [getMahalTh, Chain.gates, ih j]

theorem setEnabled_out_of_range (c : Chain α) (i : Nat) (e : Bool)
    (h : c.gates.length ≤ i) : setEnabled c i e = .error .assert0 := by
  induction c generalizing i with
  | OutlierDetectionDefault base => simp [setEnabled]
  | OutlierDetectionConcat base sub_ ih =>
      cases i with
      | zero => simp [Chain.gates] at h
      | succ j =>
          have hj : sub_.gates.length ≤ j := by
            simp only [Chain.gates, List.length_cons] at h
            omega
          simp [setEnabled, ih j hj, Except.map]

end Queries

/-! ## C4: the streak counter -/

section Streak

variable {α : Type} [LinearOrderedField α]
variable (inverse : (k : Nat) → Matrix (Fin k) (Fin k) α → Matrix (Fin k) (Fin k) α)

/-- Every pass that returns is the pass described by `body_spec`. -/
theorem doOutlierDetection_ok_gates {dI dS : Nat} (c c1 : Chain α)
    (v : Matrix (Fin dI) (Fin 1) α) (Py Py1 : Matrix (Fin dI) (Fin dI) α)
    (H H1 : Matrix (Fin dI) (Fin dS) α)
    (h : doOutlierDetection inverse c v Py H = .ok (c1, Py1, H1)) :
    c.adequate dI ∧ c1 = Chain.mapGates (checkedGate inverse v Py) c := by
  have hd := doOutlierDetection_ok_adequate inverse c v Py H _ h
  obtain ⟨Py2, H2, hbody, -, -⟩ := body_spec inverse c v Py H hd
  rw [doOutlierDetection_eq_body inverse c v Py H hd, hbody] at h
  injection h with h
  exact ⟨hd, (congrArg Prod.fst h).symm⟩

theorem checkedGate_count {E : Nat} (v : Matrix (Fin E) (Fin 1) α)
    (Py : Matrix (Fin E) (Fin E) α) (g : OutlierDetectionBase α) (h : g.S_ + g.D_ ≤ E) :
    (checkedGate inverse v Py g).outlierCount_ =
      if (checkedGate inverse v Py g).outlier_ = true then (g.outlierCount_ + 1) % UINT_MOD
      else 0 := by
  unfold checkedGate
  rw [dif_pos h]
  split_ifs <;> simp_all

/-- The counter of gate `i` after one pass that returns. -/
theorem pass_count {dI dS : Nat} (c c1 : Chain α)
    (v : Matrix (Fin dI) (Fin 1) α) (Py Py1 : Matrix (Fin dI) (Fin dI) α)
    (H H1 : Matrix (Fin dI) (Fin dS) α) (i : Nat) (g : OutlierDetectionBase α)
    (hg : c.gates[i]? = some g)
    (h : doOutlierDetection inverse c v Py H = .ok (c1, Py1, H1)) :
    ∃ g1, c1.gates[i]? = some g1 ∧
      g1.outlierCount_ = if g1.outlier_ = true then (g.outlierCount_ + 1) % UINT_MOD else 0 := by
  obtain ⟨hd, rfl⟩ := doOutlierDetection_ok_gates inverse c c1 v Py Py1 H H1 h
  refine ⟨checkedGate inverse v Py g, ?_, ?_⟩
  · rw [gates_mapGates, List.getElem?_map, hg]
    rfl
  · exact checkedGate_count inverse v Py g (hd g (List.getElem?_mem hg))

/-- After `n` consecutive flagged passes from a count of 0 the count is `n`
modulo `2 ^ 32`. -/
theorem flaggedPasses_count {dI dS : Nat} (i n : Nat) (c c1 : Chain α)
    (hp : FlaggedPasses inverse dI dS i n c c1) (g : OutlierDetectionBase α)
    (hg : c.gates[i]? = some g) (h0 : g.outlierCount_ = 0) :
    ∃ g1, c1.gates[i]? = some g1 ∧ g1.outlierCount_ = n % UINT_MOD := by
  induction hp with
  | zero c => exact ⟨g, hg, by simp [h0]⟩
  | succ v Py Py2 H H2 _ hrun hflag ih =>
      obtain ⟨g1, hg1, hc1⟩ := ih hg
      obtain ⟨g2, hg2, hc2⟩ := pass_count inverse _ _ v Py Py2 H H2 i g1 hg1 hrun
      refine ⟨g2, hg2, ?_⟩
      rw [isOutlier_eq, hg2] at hflag
      have ho : g2.outlier_ = true := by
        simpa using hflag
      rw [hc2, if_pos ho, hc1, Nat.add_mod, Nat.mod_mod, ← Nat.add_mod]

theorem adequate_mapGates_checkedGate {dI : Nat} (c : Chain α)
    (v : Matrix (Fin dI) (Fin 1) α) (Py : Matrix (Fin dI) (Fin dI) α) (hd : c.adequate dI) :
    (Chain.mapGates (checkedGate inverse v Py) c).adequate dI := by
  intro g1 hg1
  rw [gates_mapGates, List.mem_map] at hg1
  obtain ⟨g, hg, rfl⟩ := hg1
  rw [checkedGate_S, checkedGate_D]
  exact hd g hg

/-- One more flagged pass after `n` of them. -/
theorem flaggedPasses_step {dI dS : Nat} (i n : Nat) (c0 c : Chain α)
    (v : Matrix (Fin dI) (Fin 1) α) (Py : Matrix (Fin dI) (Fin dI) α)
    (H : Matrix (Fin dI) (Fin dS) α) (g : OutlierDetectionBase α)
    (hp : FlaggedPasses inverse dI dS i n c0 c) (hd : c.adequate dI)
    (hg : c.gates[i]? = some g) (hf : (checkedGate inverse v Py g).outlier_ = true) :
    FlaggedPasses inverse dI dS i (n + 1) c0 (Chain.mapGates (checkedGate inverse v Py) c) := by
  obtain ⟨Py1, H1, hrun, -, -⟩ := body_spec inverse c v Py H hd
  refine FlaggedPasses.succ v Py Py1 H H1 hp ?_ ?_
  · rw [doOutlierDetection_eq_body inverse c v Py H hd, hrun]
  · rw [isOutlier_eq, gates_mapGates, List.getElem?_map, hg]
    simp [hf]

/-- C4: after one pass of `doOutlierDetection` (which returns whenever the
dimension is adequate) the `outlierCount_` of every gate is its previous value
plus one modulo `2 ^ 32` if the gate is flagged in this pass, and 0 otherwise.
Consequently, from a count of 0, `n` consecutive flagged passes give a count
of `n` for every `n < 2 ^ 32` (three give 3), and one following non-flagged pass
gives 0. -/
theorem C4_streak_counter {dI dS : Nat} (c : Chain α) (i : Nat) (g : OutlierDetectionBase α)
    (hg : c.gates[i]? = some g) :
    (∀ (v : Matrix (Fin dI) (Fin 1) α) (Py : Matrix (Fin dI) (Fin dI) α)
        (H : Matrix (Fin dI) (Fin dS) α),
      (c.adequate dI → ∃ r, doOutlierDetection inverse c v Py H = .ok r) ∧
      (∀ c1 Py1 H1, doOutlierDetection inverse c v Py H = .ok (c1, Py1, H1) →
        ∃ g1, c1.gates[i]? = some g1 ∧
          g1.outlierCount_ =
            if g1.outlier_ = true then (g.outlierCount_ + 1) % UINT_MOD else 0)) ∧
    (g.outlierCount_ = 0 →
      (∀ n c1, FlaggedPasses inverse dI dS i n c c1 → n < UINT_MOD →
        getCount c1 i = .ok n ∧
        (∀ (v : Matrix (Fin dI) (Fin 1) α) (Py Py2 : Matrix (Fin dI) (Fin dI) α)
            (H H2 : Matrix (Fin dI) (Fin dS) α) (c2 : Chain α),
          doOutlierDetection inverse c1 v Py H = .ok (c2, Py2, H2) →
          isOutlier c2 i = .ok false → getCount c2 i = .ok 0)) ∧
      (∀ c1, FlaggedPasses inverse dI dS i 3 c c1 → getCount c1 i = .ok 3)) := by
  have key : g.outlierCount_ = 0 → ∀ n c1, FlaggedPasses inverse dI dS i n c c1 →
      n < UINT_MOD → getCount c1 i = .ok n ∧
        (∀ (v : Matrix (Fin dI) (Fin 1) α) (Py Py2 : Matrix (Fin dI) (Fin dI) α)
            (H H2 : Matrix (Fin dI) (Fin dS) α) (c2 : Chain α),
          doOutlierDetection inverse c1 v Py H = .ok (c2, Py2, H2) →
          isOutlier c2 i = .ok false → getCount c2 i = .ok 0) := by
    intro h0 n c1 hp hn
    obtain ⟨g1, hg1, hc1⟩ := flaggedPasses_count inverse i n c c1 hp g hg h0
    constructor
    · rw [getCount_eq, hg1]
      simp only [hc1, Nat.mod_eq_of_lt hn]
    · intro v Py Py2 H H2 c2 hrun hflag
      obtain ⟨g2, hg2, hc2⟩ := pass_count inverse _ _ v Py Py2 H H2 i g1 hg1 hrun
      rw [isOutlier_eq, hg2] at hflag
      have ho : g2.outlier_ = false := by
        simpa using hflag
      rw [getCount_eq, hg2]
      simp only [hc2, ho]
      simp
  refine ⟨?_, ?_⟩
  · intro v Py H
    constructor
    · intro hd
      obtain ⟨Py1, H1, hrun, -, -⟩ := body_spec inverse c v Py H hd
      exact ⟨_, by rw [doOutlierDetection_eq_body inverse c v Py H hd, hrun]⟩
    · intro c1 Py1 H1 hrun
      exact pass_count inverse c c1 v Py Py1 H H1 i g hg hrun
  · intro h0
    exact ⟨key h0, fun c1 hp => (key h0 3 c1 hp (by decide)).1⟩

/-- C4 at the second gate of the example chain: three flagged passes give a count
of 3. -/
theorem C4_streak_counter_witness :
    exChain.gates[1]? = some exGate1 ∧ exGate1.outlierCount_ = 0 ∧
    ∃ c3, FlaggedPasses inverseExact 5 2 1 3 exChain c3 ∧ getCount c3 1 = .ok 3 := by
  have h0 : FlaggedPasses inverseExact 5 2 1 0 exChain exChain := FlaggedPasses.zero _
  have a0 := exChain_adequate
  have h1 := flaggedPasses_step inverseExact 1 0 exChain exChain exV exPy exH exGate1 h0 a0 rfl
    (by decide!)
  have a1 := adequate_mapGates_checkedGate inverseExact exChain exV exPy a0
  have h2 := flaggedPasses_step inverseExact 1 1 exChain _ exV exPy exH
    (checkedGate inverseExact exV exPy exGate1) h1 a1 rfl (by decide!)
  have a2 := adequate_mapGates_checkedGate inverseExact _ exV exPy a1
  have h3 := flaggedPasses_step inverseExact 1 2 exChain _ exV exPy exH
    (checkedGate inverseExact exV exPy (checkedGate inverseExact exV exPy exGate1)) h2 a2 rfl
    (by decide!)
  exact ⟨rfl, rfl, _, h3,
    ((C4_streak_counter inverseExact exChain 1 exGate1 rfl).2 rfl).2 _ h3⟩

end Streak

/-! ## C5: addressing by gate number -/

section Addressing

variable {α : Type}

/-- C5: for a chain with `K = c.gates.length` gates (the sentinel not counted) and
every index `i`: if `i < K`, then `isOutlier`, `getCount` and `getMahalTh` return
the `outlier_`, `outlierCount_` and `mahalanobisTh_` of gate number `i` in chain
order; if `i ≥ K`, each of them, and `setEnabled i e`, ends in the `assert(0)` of
the sentinel. -/
theorem C5_addressing_by_gate_number (c : Chain α) (i : Nat) :
    (i < c.gates.length →
      ∃ g, c.gates[i]? = some g ∧ isOutlier c i = .ok g.outlier_ ∧
        getCount c i = .ok g.outlierCount_ ∧ getMahalTh c i = .ok g.mahalanobisTh_) ∧
    (c.gates.length ≤ i →
      isOutlier c i = .error .assert0 ∧ getCount c i = .error .assert0 ∧
        getMahalTh c i = .error .assert0 ∧ ∀ e, setEnabled c i e = .error .assert0) := by
  constructor
  · intro hi
    refine ⟨c.gates[i], List.getElem?_eq_getElem hi, ?_, ?_, ?_⟩
    · rw [isOutlier_eq, List.getElem?_eq_getElem hi]
    · rw [getCount_eq, List.getElem?_eq_getElem hi]
    · rw [getMahalTh_eq, List.getElem?_eq_getElem hi]
  · intro hi
    have hnone : c.gates[i]? = none := List.getElem?_eq_none hi
    refine ⟨?_, ?_, ?_, ?_⟩
    · rw [isOutlier_eq, hnone]
    · rw [getCount_eq, hnone]
    · rw [getMahalTh_eq, hnone]
    · intro e
      exact setEnabled_out_of_range c i e hi

/-- C5 at the example chain of two gates: gate 1 is addressable, index 2 (the
sentinel) is not. -/
theorem C5_addressing_by_gate_number_witness :
    exChain.gates.length = 2 ∧
    (∃ g, exChain.gates[1]? = some g ∧ isOutlier exChain 1 = .ok g.outlier_ ∧
        getCount exChain 1 = .ok g.outlierCount_ ∧
        getMahalTh exChain 1 = .ok g.mahalanobisTh_) ∧
    (isOutlier exChain 2 = .error .assert0 ∧ getCount exChain 2 = .error .assert0 ∧
        getMahalTh exChain 2 = .error .assert0 ∧
        ∀ e, setEnabled exChain 2 e = .error .assert0) :=
  ⟨rfl, (C5_addressing_by_gate_number exChain 1).1 (by decide),
    (C5_addressing_by_gate_number exChain 2).2 (by decide)⟩

end Addressing

/-! ## C6: the chain of a descriptor list -/

section Descriptors

variable {α : Type} [LinearOrderedField α]

theorem ranges_init (S D : Nat) (c : Chain α) :
    (OutlierDetectionConcat.init α S D c).ranges = (S, D) :: c.ranges := by
  simp [OutlierDetectionConcat.init, Chain.ranges, Chain.gates, OutlierDetectionBase.init]

theorem ranges_default : (OutlierDetectionDefault.init α).ranges = [] := by
  simp [OutlierDetectionDefault.init, Chain.ranges, Chain.gates]

theorem sentinel_init (S D : Nat) (c : Chain α) :
    (OutlierDetectionConcat.init α S D c).sentinel = c.sentinel := rfl

/-- The chain of a non-empty descriptor list: every descriptor expands to its
repeated ranges, and the sentinel is a default-constructed
`OutlierDetectionBase<0,0>`. -/
theorem OutlierDetection_ranges (l : List ODEntry) (hne : l ≠ []) :
    ∃ c : Chain α, OutlierDetection α l = some c ∧
      c.ranges = l.flatMap (fun e => repeatRanges e.S_ e.D_ e.N) ∧
      c.sentinel = OutlierDetectionBase.init α 0 0 := by
  induction l using OutlierDetection.induct α with
  | case1 => exact absurd rfl hne
  | case2 S D =>
      exact ⟨OutlierDetectionDefault.init α, by rw [OutlierDetection],
        by simp [ranges_default, repeatRanges], rfl⟩
  | case3 S D =>
      exact ⟨OutlierDetectionConcat.init α S D (OutlierDetectionDefault.init α),
        by rw [OutlierDetection], by simp [ranges_init, ranges_default, repeatRanges], rfl⟩
  | case4 S D N ih =>
      obtain ⟨c, hc, hr, hs⟩ := ih (by simp)
      refine ⟨OutlierDetectionConcat.init α S D c, ?_, ?_, ?_⟩
      · rw [OutlierDetection, hc]; rfl
      · rw [ranges_init, hr]
        simp [repeatRanges]
      · rw [sentinel_init, hs]
  | case5 S D e rest ih =>
      obtain ⟨c, hc, hr, hs⟩ := ih (by simp)
      refine ⟨c, ?_, ?_, hs⟩
      · rw [OutlierDetection, hc]
      · rw [hr]
        simp [repeatRanges]
  | case6 S D e rest ih =>
      obtain ⟨c, hc, hr, hs⟩ := ih (by simp)
      refine ⟨OutlierDetectionConcat.init α S D c, ?_, ?_, ?_⟩
      · rw [OutlierDetection, hc]; rfl
      · rw [ranges_init, hr]
        simp [repeatRanges]
      · rw [sentinel_init, hs]
  | case7 S D N e rest ih =>
      obtain ⟨c, hc, hr, hs⟩ := ih (by simp)
      refine ⟨OutlierDetectionConcat.init α S D c, ?_, ?_, ?_⟩
      · rw [OutlierDetection, hc]; rfl
      · rw [ranges_init, hr]
        simp [repeatRanges]
      · rw [sentinel_init, hs]

theorem repeatRanges_eq (S D N : Nat) (hS : S < UINT_MOD) :
    repeatRanges S D N = (List.range N).map fun k => ((S + k * D) % UINT_MOD, D) := by
  induction N generalizing S with
  | zero => rfl
  | succ N ih =>
      rw [repeatRanges, ih _ (Nat.mod_lt _ (by decide)), List.range_succ_eq_map, List.map_cons,
        List.map_map]
      congr 1
      · simp [Nat.mod_eq_of_lt hS]
      · apply List.map_congr_left
        intro k _
        simp only [Function.comp, Prod.mk.injEq, and_true]
        rw [Nat.add_mod, Nat.mod_mod, ← Nat.add_mod]
        congr 1
        rw [Nat.succ_mul]
        omega

theorem length_repeatRanges (S D N : Nat) : (repeatRanges S D N).length = N := by
  induction N generalizing S with
  | zero => rfl
  | succ N ih => simp [repeatRanges, ih]

/-- C6, amended: for every non-empty list of `unsigned int` descriptors the chain
consists, in order, of the gates with offset `(S_j + k*D_j) mod 2 ^ 32` and
width `D_j` for `k = 0 .. N_j - 1`, for the descriptors in list order, followed
by the sentinel; a descriptor with `N_j = 0` contributes no gate and the number
of gates is `N_1 + ... + N_m`. -/
theorem C6_chain_of_descriptor_list (l : List ODEntry) (hne : l ≠ [])
    (hS : ∀ e ∈ l, e.S_ < UINT_MOD) :
    ∃ c : Chain α, OutlierDetection α l = some c ∧ c.ranges = wrappedRanges l ∧
      c.sentinel = OutlierDetectionBase.init α 0 0 ∧
      c.gates.length = (l.map fun e => e.N).sum := by
  obtain ⟨c, hc, hr, hs⟩ := OutlierDetection_ranges (α := α) l hne
  have hw : l.flatMap (fun e => repeatRanges e.S_ e.D_ e.N) = wrappedRanges l := by
    unfold wrappedRanges
    apply List.flatMap_congr
    intro e he
    exact repeatRanges_eq e.S_ e.D_ e.N (hS e he)
  refine ⟨c, hc, hr.trans hw, hs, ?_⟩
  have hlen : c.gates.length = c.ranges.length := by simp [Chain.ranges]
  rw [hlen, hr]
  clear hne hS hc hr hw hlen
  induction l with
  | nil => rfl
  | cons e rest ih => simp [List.flatMap_cons, length_repeatRanges, ih]

/-- C6, amended, at a list of three descriptors, the last with a repeat count
of 0. -/
theorem C6_chain_of_descriptor_list_witness :
    ∃ c : Chain ℚ, OutlierDetection ℚ [⟨0, 2, 1⟩, ⟨2, 3, 2⟩, ⟨1, 1, 0⟩] = some c ∧
      c.ranges = [(0, 2), (2, 3), (5, 3)] ∧ c.gates.length = 3 := by
  obtain ⟨c, hc, hr, -, hl⟩ :=
    C6_chain_of_descriptor_list (α := ℚ) [⟨0, 2, 1⟩, ⟨2, 3, 2⟩, ⟨1, 1, 0⟩] (by simp)
      (by simp [UINT_MOD])
  exact ⟨c, hc, by rw [hr]; decide, by rw [hl]; rfl⟩

/-- C6 as worded fails where the offsets overflow `unsigned int`: the second gate
of `ODEntry<4294967295,1,2>` has offset 0, not 4294967296. It also fails for the
empty descriptor list, whose class is the primary template without members:
no sentinel follows. -/
theorem C6_counterexample :
    (¬ ∃ c : Chain ℚ, OutlierDetection ℚ [⟨4294967295, 1, 2⟩] = some c ∧
        c.ranges = statedRanges [⟨4294967295, 1, 2⟩]) ∧
    (∃ c : Chain ℚ, OutlierDetection ℚ [⟨4294967295, 1, 2⟩] = some c ∧
        c.ranges = [(4294967295, 1), (0, 1)]) ∧
    OutlierDetection ℚ [] = none := by
  have h : OutlierDetection ℚ [⟨4294967295, 1, 2⟩] =
      some (OutlierDetectionConcat.init ℚ 4294967295 1
        (OutlierDetectionConcat.init ℚ 0 1 (OutlierDetectionDefault.init ℚ))) := by
    simp [OutlierDetection, UINT_MOD]
  refine ⟨?_, ⟨_, h, ?_⟩, ?_⟩
  · rintro ⟨c, hc, hr⟩
    rw [h] at hc
    injection hc with hc
    subst hc
    rw [ranges_init, ranges_init, ranges_default] at hr
    revert hr
    decide
  · rw [ranges_init, ranges_init, ranges_default]
  · rw [OutlierDetection]

end Descriptors

/-! ## C7: contiguity and disjointness of the ranges -/

section Contiguity

variable {α : Type} [LinearOrderedField α]

theorem contiguousRanges_of_from (s : Nat) (rs : List (Nat × Nat))
    (h : contiguousFrom s rs) : contiguousRanges rs := by
  induction rs generalizing s with
  | nil => trivial
  | cons p rest ih =>
      cases rest with
      | nil => trivial
      | cons q rest2 =>
          obtain ⟨_, hq, hrest⟩ := h
          exact ⟨hq, ih (p.1 + p.2) ⟨hq, hrest⟩⟩

theorem contiguousFrom_start_le (s : Nat) (rs : List (Nat × Nat))
    (h : contiguousFrom s rs) : ∀ q ∈ rs, s ≤ q.1 := by
  induction rs generalizing s with
  | nil => intro q hq; simp at hq
  | cons p rest ih =>
      intro q hq
      obtain ⟨hp, hrest⟩ := h
      rcases List.mem_cons.1 hq with rfl | hq
      · omega
      · have := ih (p.1 + p.2) hrest q hq
        omega

theorem nonOverlapping_of_from (s : Nat) (rs : List (Nat × Nat))
    (h : contiguousFrom s rs) : nonOverlappingRanges rs := by
  induction rs generalizing s with
  | nil =>
      intro i j p q x _ hp
      simp at hp
  | cons r rest ih =>
      obtain ⟨hr, hrest⟩ := h
      have hle := contiguousFrom_start_le (r.1 + r.2) rest hrest
      intro i j p q x hij hp hq hx
      obtain ⟨⟨hp1, hp2⟩, hq1, hq2⟩ := hx
      cases i with
      | zero =>
          cases j with
          | zero => exact hij rfl
          | succ j2 =>
              simp only [List.getElem?_cons_zero, Option.some.injEq] at hp
              simp only [List.getElem?_cons_succ] at hq
              have := hle q (List.getElem?_mem hq)
              subst hp
              omega
      | succ i2 =>
          cases j with
          | zero =>
              simp only [List.getElem?_cons_zero, Option.some.injEq] at hq
              simp only [List.getElem?_cons_succ] at hp
              have := hle p (List.getElem?_mem hp)
              subst hq
              omega
          | succ j2 =>
              simp only [List.getElem?_cons_succ] at hp hq
              exact ih (r.1 + r.2) hrest i2 j2 p q x (by omega) hp hq ⟨⟨hp1, hp2⟩, hq1, hq2⟩

theorem contiguousFrom_append (s t : Nat) (xs ys : List (Nat × Nat))
    (hx : contiguousFrom s xs) (ht : t = s + (xs.map Prod.snd).sum)
    (hy : contiguousFrom t ys) : contiguousFrom s (xs ++ ys) := by
  induction xs generalizing s with
  | nil =>
      simp only [List.map_nil, List.sum_nil, Nat.add_zero] at ht
      subst ht
      simpa using hy
  | cons p rest ih =>
      obtain ⟨hp, hrest⟩ := hx
      refine ⟨hp, ih (p.1 + p.2) hrest ?_⟩
      simp only [List.map_cons, List.sum_cons] at ht
      omega

theorem contiguousFrom_repeatRanges (S D N : Nat) (hS : S < UINT_MOD)
    (hN : S + N * D ≤ UINT_MOD) :
    contiguousFrom S (repeatRanges S D N) ∧ ((repeatRanges S D N).map Prod.snd).sum = N * D := by
  induction N generalizing S with
  | zero => simp [repeatRanges, contiguousFrom]
  | succ N ih =>
      cases N with
      | zero => simp [repeatRanges, contiguousFrom]
      | succ M =>
          have hlt : S + D < UINT_MOD := by
            rcases Nat.eq_zero_or_pos D with h0 | hpos
            · omega
            · have : (M + 1 + 1) * D = (M + 1) * D + D := Nat.succ_mul _ _
              have : 1 * D ≤ (M + 1) * D := Nat.mul_le_mul_right D (by omega)
              omega
          have hmod : (S + D) % UINT_MOD = S + D := Nat.mod_eq_of_lt hlt
          have hN2 : S + D + (M + 1) * D ≤ UINT_MOD := by
            have : (M + 1 + 1) * D = (M + 1) * D + D := Nat.succ_mul _ _
            omega
          obtain ⟨h1, h2⟩ := ih (S + D) hlt hN2
          rw [repeatRanges, hmod]
          refine ⟨⟨rfl, h1⟩, ?_⟩
          rw [List.map_cons, List.sum_cons, h2]
          have : (M + 1 + 1) * D = (M + 1) * D + D := Nat.succ_mul _ _
          simp only
          omega

theorem contiguousFrom_flatMap (l : List ODEntry) (hb : backToBack l) (s : Nat)
    (hs : ∀ e, l.head? = some e → e.S_ = s) :
    contiguousFrom s (l.flatMap fun e => repeatRanges e.S_ e.D_ e.N) := by
  induction l generalizing s with
  | nil => trivial
  | cons e rest ih =>
      have he : e.S_ = s := hs e rfl
      subst he
      rw [List.flatMap_cons]
      cases rest with
      | nil =>
          obtain ⟨h1, h2⟩ := hb
          simpa using (contiguousFrom_repeatRanges e.S_ e.D_ e.N h2 h1).1
      | cons f rest2 =>
          obtain ⟨h1, h2, h3, h4⟩ := hb
          obtain ⟨c1, c2⟩ := contiguousFrom_repeatRanges e.S_ e.D_ e.N h2 h1
          refine contiguousFrom_append e.S_ f.S_ _ _ c1 (by rw [c2, h3]) (ih h4 f.S_ ?_)
          intro e2 he2
          simp only [List.head?_cons, Option.some.injEq] at he2
          rw [he2]

/-- C7, amended: for every non-empty descriptor list whose descriptors are laid out
back to back inside the `unsigned int` range (each starts where the blocks of
the one before it end), the ranges of the gates of the chain are contiguous and
non-overlapping: each starts where the previous one ends, and no index belongs
to the ranges of two different gates. -/
theorem C7_ranges_contiguous_and_disjoint (l : List ODEntry) (hne : l ≠ [])
    (hb : backToBack l) :
    ∃ c : Chain α, OutlierDetection α l = some c ∧ contiguousRanges c.ranges ∧
      nonOverlappingRanges c.ranges := by
  obtain ⟨c, hc, hr, -⟩ := OutlierDetection_ranges (α := α) l hne
  cases l with
  | nil => exact absurd rfl hne
  | cons e rest =>
      have hfrom := contiguousFrom_flatMap (e :: rest) hb e.S_ (by
        intro e2 he2
        simp only [List.head?_cons, Option.some.injEq] at he2
        rw [he2])
      rw [← hr] at hfrom
      exact ⟨c, hc, contiguousRanges_of_from _ _ hfrom, nonOverlapping_of_from _ _ hfrom⟩

/-- C7, amended, at a list of three descriptors laid out back to back. -/
theorem C7_ranges_contiguous_and_disjoint_witness :
    backToBack [⟨0, 2, 1⟩, ⟨2, 3, 2⟩, ⟨8, 1, 0⟩] ∧
    ∃ c : Chain ℚ, OutlierDetection ℚ [⟨0, 2, 1⟩, ⟨2, 3, 2⟩, ⟨8, 1, 0⟩] = some c ∧
      contiguousRanges c.ranges ∧ nonOverlappingRanges c.ranges :=
  ⟨by simp [backToBack, UINT_MOD],
    C7_ranges_contiguous_and_disjoint [⟨0, 2, 1⟩, ⟨2, 3, 2⟩, ⟨8, 1, 0⟩] (by simp)
      (by simp [backToBack, UINT_MOD])⟩

/-- C7 as worded fails: the descriptors carry their own offsets, and the chain of
`ODEntry<0,2>, ODEntry<1,2>` has the ranges `[0,2)` and `[1,3)`, which share the
index 1 and are not contiguous. -/
theorem C7_counterexample :
    ∃ c : Chain ℚ, OutlierDetection ℚ [⟨0, 2, 1⟩, ⟨1, 2, 1⟩] = some c ∧
      c.ranges = [(0, 2), (1, 2)] ∧
      ¬ contiguousRanges c.ranges ∧ ¬ nonOverlappingRanges c.ranges := by
  have h : OutlierDetection ℚ [⟨0, 2, 1⟩, ⟨1, 2, 1⟩] =
      some (OutlierDetectionConcat.init ℚ 0 2
        (OutlierDetectionConcat.init ℚ 1 2 (OutlierDetectionDefault.init ℚ))) := by
    simp [OutlierDetection]
  have hr : (OutlierDetectionConcat.init ℚ 0 2
      (OutlierDetectionConcat.init ℚ 1 2 (OutlierDetectionDefault.init ℚ))).ranges =
      [(0, 2), (1, 2)] := by
    rw [ranges_init, ranges_init, ranges_default]
  refine ⟨_, h, hr, ?_, ?_⟩
  · rw [hr]
    simp [contiguousRanges]
  · rw [hr]
    intro hno
    exact hno 0 1 (0, 2) (1, 2) 1 (by decide) rfl rfl (by simp [inRange])

end Contiguity

/-! ## C8: the Jacobian test -/

section JacobianTest

/-- C8 at the example model, whose `jacInput` returns 1 while the finite-difference
Jacobian of its `eval` is 2: the difference is -1, `maxCoeff` returns -1, which
is not larger than the tolerance, and `testJacInput` reports success, although
the largest absolute difference, 1, exceeds the tolerance. -/
theorem C8_testJacInput_misses_negative_difference :
    exModel.testJacInput (fun _ _ => 7) (1 / 1000000) (1 / 1000000) 0 (1 / 10) =
        .ok (.successful (-1)) ∧
      maxAbsCoeff
          (exModel.jacInput (exModel.mtInput.setRandom 0 exModel.mtInput.init)
              (exModel.mtMeas.setRandom 0 exModel.mtMeas.init) (1 / 10) -
            exModel.jacInputFD (fun _ _ => 7) (exModel.mtInput.setRandom 0 exModel.mtInput.init)
              (exModel.mtMeas.setRandom 0 exModel.mtMeas.init) (1 / 10) (1 / 1000000)) =
        .ok 1 ∧
      (1 : ℚ) > 1 / 1000000 := by
  decide!

end JacobianTest

/-! ## C9 and C10: finite differences and the identity noise -/

section Columns

variable {α : Type}

/-- A loop that assigns column `i` for every `i` of a list leaves, in every column
of the list, the value assigned to it. -/
theorem foldl_setCol {r c : Nat} (col : Fin c → Fin r → α) (l : List (Fin c))
    (F : Matrix (Fin r) (Fin c) α) (a : Fin r) (b : Fin c) :
    (l.foldl (fun F i => setCol F i (col i)) F) a b = if b ∈ l then col b a else F a b := by
  induction l generalizing F with
  | nil => simp
  | cons i rest ih =>
      rw [List.foldl_cons, ih]
      by_cases hb : b ∈ rest
      · simp [hb]
      · by_cases hi : b = i
        · simp [hb, hi, setCol]
        · simp [hb, hi, setCol]

end Columns

section FiniteDifferences

variable {α Input Output Meas Noise : Type} [LinearOrderedField α]

/-- C9: for every model, `input`, `meas`, `dt`, non-zero step `d` and every column
`i` of the input tangent space, column `i` of `jacInputFD` is
`boxMinus(eval(boxPlus(input, d*e_i), meas, dt), eval(input, meas, dt))` divided
by `d`, whatever the local `F` held before the loop; `eval` is the
three-argument one, which evaluates at identity noise unless the model
overrides it. -/
theorem C9_jacInputFD_column (m : ModelBase α Input Output Meas Noise)
    (F : Matrix (Fin m.mtOutput.D_) (Fin m.mtInput.D_) α) (input : Input) (meas : Meas)
    (dt d : α) (_hd : d ≠ 0) (i : Fin m.mtInput.D_) (k : Fin m.mtOutput.D_) :
    m.jacInputFD F input meas dt d k i =
        m.mtOutput.boxMinus
          (m.eval (m.mtInput.boxPlus input fun j => d * (if j = i then 1 else 0)) meas dt)
          (m.eval input meas dt) k / d ∧
      (m.evalOverride = none → ∀ x : Input,
        m.eval x meas dt = m.evalNoise x meas (m.mtNoise.setIdentity m.mtNoise.init) dt) := by
  constructor
  · have h := foldl_setCol
      (fun (i : Fin m.mtInput.D_) (k : Fin m.mtOutput.D_) =>
        m.mtOutput.boxMinus
          (m.eval (m.mtInput.boxPlus input fun j =>
            d * (1 : Matrix (Fin m.mtInput.D_) (Fin m.mtInput.D_) α) j i) meas dt)
          (ModelBase.jacInputFD.outputReference m input meas dt) k / d)
      (List.finRange m.mtInput.D_) F k i
    simp only [List.mem_finRange, if_true] at h
    simp only [ModelBase.jacInputFD]
    rw [h]
    simp only [ModelBase.jacInputFD.outputReference, Matrix.one_apply]
  · intro h x
    simp [ModelBase.eval, h]

/-- C9 at the example model. -/
theorem C9_jacInputFD_column_witness :
    ((1 : ℚ) / 2 ≠ 0) ∧
    exModel.jacInputFD (fun _ _ => 7) 3 0 0 (1 / 2) (0 : Fin 1) (0 : Fin 1) =
      exModel.mtOutput.boxMinus
        (exModel.eval
          (exModel.mtInput.boxPlus 3 fun j => 1 / 2 * (if j = (0 : Fin 1) then 1 else 0)) 0 0)
        (exModel.eval 3 0 0) (0 : Fin 1) / (1 / 2) :=
  ⟨by norm_num,
    (C9_jacInputFD_column exModel (fun _ _ => 7) 3 0 0 (1 / 2) (by norm_num)
      (0 : Fin 1) (0 : Fin 1)).1⟩

end FiniteDifferences

section IdentityNoise

variable {α Input Output Meas Noise : Type}

/-- C10: for every model that overrides only the four-argument `eval` (by `f`), the
three-argument `eval(input, meas, dt)` returns `eval(input, meas, n0, dt)` with
`n0` the noise after `setIdentity()`; hence the `outputReference` of
`jacInputFD` equals the `outputReference` of `jacNoiseFD`. -/
theorem C10_eval_at_identity_noise (m : ModelBase α Input Output Meas Noise)
    (f : Input → Meas → Noise → α → Output)
    (h3 : m.evalOverride = none) (h4 : m.evalNoiseOverride = some f)
    (input : Input) (meas : Meas) (dt : α) :
    m.eval input meas dt = m.evalNoise input meas (m.mtNoise.setIdentity m.mtNoise.init) dt ∧
      m.eval input meas dt = f input meas (m.mtNoise.setIdentity m.mtNoise.init) dt ∧
      ModelBase.jacInputFD.outputReference m input meas dt =
        ModelBase.jacNoiseFD.outputReference m input meas dt := by
  refine ⟨?_, ?_, ?_⟩
  · simp [ModelBase.eval, h3]
  · simp [ModelBase.eval, ModelBase.evalNoise, h3, h4]
  · simp [ModelBase.jacInputFD.outputReference, ModelBase.jacNoiseFD.outputReference,
      ModelBase.eval, h3]

/-- C10 at the example model. -/
theorem C10_eval_at_identity_noise_witness :
    exModel.evalOverride = none ∧
    exModel.eval 3 0 0 = exModel.evalNoise 3 0 (exModel.mtNoise.setIdentity exModel.mtNoise.init) 0 ∧
    exModel.eval 3 0 0 = 2 * 3 + exModel.mtNoise.setIdentity exModel.mtNoise.init ∧
    ModelBase.jacInputFD.outputReference exModel 3 0 0 =
      ModelBase.jacNoiseFD.outputReference exModel 3 0 0 :=
  ⟨rfl, C10_eval_at_identity_noise exModel (fun input _ noise _ => 2 * input + noise) rfl rfl
    3 0 0⟩

end IdentityNoise

/-! ## C11 and C18: the default threshold -/

section DefaultThreshold

variable {α : Type} [LinearOrderedField α]

/-- Every gate of a chain built from a descriptor list is freshly constructed. -/
theorem OutlierDetection_gates_fresh (l : List ODEntry) (c : Chain α)
    (h : OutlierDetection α l = some c) :
    ∀ g ∈ c.gates, g = OutlierDetectionBase.init α g.S_ g.D_ := by
  induction l using OutlierDetection.induct α generalizing c with
  | case1 => rw [OutlierDetection] at h; exact absurd h (by simp)
  | case2 S D =>
      rw [OutlierDetection] at h
      injection h with h
      subst h
      intro g hg
      simp [OutlierDetectionDefault.init, Chain.gates] at hg
  | case3 S D =>
      rw [OutlierDetection] at h
      injection h with h
      subst h
      intro g hg
      simp only [OutlierDetectionConcat.init, OutlierDetectionDefault.init, Chain.gates,
        List.mem_singleton] at hg
      subst hg
      rfl
  | case4 S D N ih =>
      rw [OutlierDetection] at h
      cases hc : OutlierDetection α [⟨(S + D) % UINT_MOD, D, N + 1⟩] with
      | none => simp [hc] at h
      | some c2 =>
          simp only [hc, Option.map_some', Option.some.injEq] at h
          subst h
          intro g hg
          simp only [OutlierDetectionConcat.init, Chain.gates, List.mem_cons] at hg
          rcases hg with rfl | hg
          · rfl
          · exact ih c2 hc g hg
  | case5 S D e rest ih =>
      rw [OutlierDetection] at h
      exact ih c h
  | case6 S D e rest ih =>
      rw [OutlierDetection] at h
      cases hc : OutlierDetection α (e :: rest) with
      | none => simp [hc] at h
      | some c2 =>
          simp only [hc, Option.map_some', Option.some.injEq] at h
          subst h
          intro g hg
          simp only [OutlierDetectionConcat.init, Chain.gates, List.mem_cons] at hg
          rcases hg with rfl | hg
          · rfl
          · exact ih c2 hc g hg
  | case7 S D N e rest ih =>
      rw [OutlierDetection] at h
      cases hc : OutlierDetection α (⟨(S + D) % UINT_MOD, D, N + 1⟩ :: e :: rest) with
      | none => simp [hc] at h
      | some c2 =>
          simp only [hc, Option.map_some', Option.some.injEq] at h
          subst h
          intro g hg
          simp only [OutlierDetectionConcat.init, Chain.gates, List.mem_cons] at hg
          rcases hg with rfl | hg
          · rfl
          · exact ih c2 hc g hg

/-- C11: a freshly constructed gate of width `D` has
`mahalanobisTh_ = -0.0376136*D*D + 1.99223*D + 2.05183` (in exact arithmetic
4.0064464 for `D = 1` and 2.05183 for the zero-width sentinel),
`outlier_ = false`, `outlierCount_ = 0` and `enabled_ = false`; the gates of a
chain built from a descriptor list are such gates. -/
theorem C11_fresh_gate (S D : Nat) :
    (OutlierDetectionBase.init α S D).mahalanobisTh_ =
        -0.0376136 * (D : α) * (D : α) + 1.99223 * (D : α) + 2.05183 ∧
      (OutlierDetectionBase.init α S D).outlier_ = false ∧
      (OutlierDetectionBase.init α S D).outlierCount_ = 0 ∧
      (OutlierDetectionBase.init α S D).enabled_ = false ∧
      (OutlierDetectionBase.init α S 1).mahalanobisTh_ = 4.0064464 ∧
      (OutlierDetectionDefault.init α).sentinel.mahalanobisTh_ = 2.05183 ∧
      (OutlierDetectionDefault.init α).sentinel.D_ = 0 ∧
      (∀ (l : List ODEntry) (c : Chain α), OutlierDetection α l = some c →
        ∀ g ∈ c.gates, g = OutlierDetectionBase.init α g.S_ g.D_) := by
  refine ⟨rfl, rfl, rfl, rfl, ?_, ?_, rfl, OutlierDetection_gates_fresh⟩
  · simp only [OutlierDetectionBase.init]
    norm_num
  · simp only [OutlierDetectionDefault.init, Chain.sentinel, OutlierDetectionBase.init]
    norm_num

/-- The default threshold as a quotient of natural numbers. -/
theorem init_mahalanobisTh_eq (S D : Nat) :
    (OutlierDetectionBase.init α S D).mahalanobisTh_ =
      (((20518300 + 19922300 * D : ℕ) : α) - ((376136 * D * D : ℕ) : α)) / 10000000 := by
  simp only [OutlierDetectionBase.init]
  push_cast
  norm_num
  ring

theorem init_mahalanobisTh_pos_iff (S D : Nat) :
    0 < (OutlierDetectionBase.init α S D).mahalanobisTh_ ↔ D ≤ 53 := by
  rw [init_mahalanobisTh_eq, div_pos_iff_of_pos_right (by norm_num), sub_pos, Nat.cast_lt]
  constructor
  · intro h
    by_contra hc
    push_neg at hc
    nlinarith
  · intro h
    interval_cases D <;> norm_num

theorem init_mahalanobisTh_neg (S D : Nat) (hD : 54 ≤ D) :
    (OutlierDetectionBase.init α S D).mahalanobisTh_ < 0 := by
  rw [init_mahalanobisTh_eq]
  apply div_neg_of_neg_of_pos _ (by norm_num)
  rw [sub_neg, Nat.cast_lt]
  nlinarith

/-- The distance of a block on which the innovation is zero is zero, whatever the
covariance and its inverse. -/
theorem mahalanobisDistance_zero
    (inverse : (k : Nat) → Matrix (Fin k) (Fin k) α → Matrix (Fin k) (Fin k) α) {E : Nat}
    (v : Matrix (Fin E) (Fin 1) α) (Py : Matrix (Fin E) (Fin E) α) (S D : Nat)
    (h : S + D ≤ E) (hv : ∀ i : Fin E, S ≤ i.val → i.val < S + D → v i 0 = 0) :
    mahalanobisDistance inverse v Py S D h = 0 := by
  have hz : slice v S 0 D 1 ⟨h, by omega⟩ = 0 := by
    funext a b
    have hb : b = 0 := Subsingleton.elim _ _
    subst hb
    exact hv ⟨S + a.val, by omega⟩ (by simp) (by simp)
  simp [mahalanobisDistance, hz]

/-- C18: the default threshold of a gate of width `D` is positive exactly when
`D ≤ 53`; for `D ≥ 54` it is negative, and a gate of such a width with its
default threshold flags an innovation that is zero on its block (distance 0)
as an outlier. -/
theorem C18_default_threshold_sign (S D : Nat) :
    (0 < (OutlierDetectionBase.init α S D).mahalanobisTh_ ↔ D ≤ 53) ∧
    (54 ≤ D → (OutlierDetectionBase.init α S D).mahalanobisTh_ < 0) ∧
    (54 ≤ D →
      ∀ (inverse : (k : Nat) → Matrix (Fin k) (Fin k) α → Matrix (Fin k) (Fin k) α)
        (E : Nat) (v : Matrix (Fin E) (Fin 1) α) (Py : Matrix (Fin E) (Fin E) α)
        (h : S + D ≤ E),
        (∀ i : Fin E, S ≤ i.val → i.val < S + D → v i 0 = 0) →
        mahalanobisDistance inverse v Py S D h = 0 ∧
        ∃ g1, check inverse (OutlierDetectionBase.init α S D) v Py = .ok g1 ∧
          g1.outlier_ = true) := by
  refine ⟨init_mahalanobisTh_pos_iff S D, init_mahalanobisTh_neg S D, ?_⟩
  intro hD inverse E v Py h hv
  have hd0 := mahalanobisDistance_zero inverse v Py S D h hv
  refine ⟨hd0, checkedGate inverse v Py (OutlierDetectionBase.init α S D),
    check_eq inverse _ v Py h, ?_⟩
  have hneg := init_mahalanobisTh_neg (α := α) S D hD
  have hS : (OutlierDetectionBase.init α S D).S_ = S := rfl
  have hDD : (OutlierDetectionBase.init α S D).D_ = D := rfl
  unfold checkedGate
  rw [dif_pos (by rw [hS, hDD]; exact h)]
  have hgt : mahalanobisDistance inverse v Py (OutlierDetectionBase.init α S D).S_
      (OutlierDetectionBase.init α S D).D_ (by rw [hS, hDD]; exact h) >
      (OutlierDetectionBase.init α S D).mahalanobisTh_ := by
    show (OutlierDetectionBase.init α S D).mahalanobisTh_ < mahalanobisDistance inverse v Py S D h
    rw [hd0]
    exact hneg
  rw [if_pos hgt]

/-- C18 at a gate of width 54 on the zero innovation of dimension 54. -/
theorem C18_default_threshold_sign_witness :
    (OutlierDetectionBase.init ℚ 0 54).mahalanobisTh_ < 0 ∧
    ∃ g1, check inverseExact (OutlierDetectionBase.init ℚ 0 54)
        (0 : Matrix (Fin 54) (Fin 1) ℚ) (1 : Matrix (Fin 54) (Fin 54) ℚ) = .ok g1 ∧
      g1.outlier_ = true :=
  ⟨(C18_default_threshold_sign 0 54).2.1 (by decide),
    ((C18_default_threshold_sign 0 54).2.2 (by decide) inverseExact 54 0 1 (by decide)
      (fun _ _ _ => rfl)).2⟩

end DefaultThreshold

/-! ## C12: monotonicity in the threshold -/

section Monotonicity

variable {α : Type} [LinearOrderedField α]
variable (inverse : (k : Nat) → Matrix (Fin k) (Fin k) α → Matrix (Fin k) (Fin k) α)

/-- The flag a check leaves in a gate whose range lies inside `v` and `Py`. -/
theorem check_outlier_iff {E : Nat} (g : OutlierDetectionBase α)
    (v : Matrix (Fin E) (Fin 1) α) (Py : Matrix (Fin E) (Fin E) α) (h : g.S_ + g.D_ ≤ E) :
    ∃ g1, check inverse g v Py = .ok g1 ∧
      (g1.outlier_ = true ↔ mahalanobisDistance inverse v Py g.S_ g.D_ h > g.mahalanobisTh_) := by
  refine ⟨checkedGate inverse v Py g, check_eq inverse g v Py h, ?_⟩
  unfold checkedGate
  rw [dif_pos h]
  split_ifs with hgt
  · simp [hgt]
  · simp [hgt]

/-- C12: for every gate whose range lies inside `v` and `Py` (so that `check`
returns) and every two thresholds `t1 ≤ t2`: if `check` with
`mahalanobisTh_ = t1` does not flag the gate, neither does `check` with
`mahalanobisTh_ = t2`; raising the threshold turns a flagged outlier into a
non-outlier exactly when the distance lies in `(t1, t2]`, and never a
non-outlier into an outlier. -/
theorem C12_threshold_monotonicity {E : Nat} (g : OutlierDetectionBase α)
    (v : Matrix (Fin E) (Fin 1) α) (Py : Matrix (Fin E) (Fin E) α) (t1 t2 : α)
    (ht : t1 ≤ t2) (h : g.S_ + g.D_ ≤ E) :
    ∃ g1 g2, check inverse { g with mahalanobisTh_ := t1 } v Py = .ok g1 ∧
      check inverse { g with mahalanobisTh_ := t2 } v Py = .ok g2 ∧
      (g1.outlier_ = false → g2.outlier_ = false) ∧
      (g2.outlier_ = true → g1.outlier_ = true) ∧
      ((g1.outlier_ = true ∧ g2.outlier_ = false) ↔
        (t1 < mahalanobisDistance inverse v Py g.S_ g.D_ h ∧
          mahalanobisDistance inverse v Py g.S_ g.D_ h ≤ t2)) := by
  obtain ⟨g1, h1, i1⟩ := check_outlier_iff inverse { g with mahalanobisTh_ := t1 } v Py h
  obtain ⟨g2, h2, i2⟩ := check_outlier_iff inverse { g with mahalanobisTh_ := t2 } v Py h
  simp only [gt_iff_lt] at i1 i2
  have key : g2.outlier_ = true → g1.outlier_ = true := fun h2t =>
    i1.2 (lt_of_le_of_lt ht (i2.1 h2t))
  refine ⟨g1, g2, h1, h2, ?_, key, ?_⟩
  · intro h1f
    cases hb : g2.outlier_ with
    | false => rfl
    | true => rw [key hb] at h1f; exact absurd h1f (by decide)
  · constructor
    · rintro ⟨a, b⟩
      refine ⟨i1.1 a, ?_⟩
      by_contra hc
      rw [i2.2 (lt_of_not_le hc)] at b
      exact absurd b (by decide)
    · rintro ⟨a, b⟩
      refine ⟨i1.2 a, ?_⟩
      cases hb : g2.outlier_ with
      | false => rfl
      | true => exact absurd (i2.1 hb) (not_lt_of_le b)

/-- C12 at the second gate of the example chain, whose distance is 34/7: flagged
with the threshold 4, not flagged with the threshold 5. -/
theorem C12_threshold_monotonicity_witness :
    (4 : ℚ) ≤ 5 ∧ exGate1.S_ + exGate1.D_ ≤ 5 ∧
    ∃ g1 g2, check inverseExact ({ exGate1 with mahalanobisTh_ := 4 } : OutlierDetectionBase ℚ) exV exPy = .ok g1 ∧
      check inverseExact ({ exGate1 with mahalanobisTh_ := 5 } : OutlierDetectionBase ℚ) exV exPy = .ok g2 ∧
      g1.outlier_ = true ∧ g2.outlier_ = false := by
  obtain ⟨g1, g2, h1, h2, -, -, h3⟩ :=
    C12_threshold_monotonicity inverseExact exGate1 exV exPy 4 5 (by norm_num) (by decide)
  have h4 := h3.2 (by decide!)
  exact ⟨by norm_num, by decide, g1, g2, h1, h2, h4.1, h4.2⟩

end Monotonicity

/-! ## C13 and C14: reset and enabling -/

section ResetEnable

variable {α : Type}

theorem gates_reset (c : Chain α) :
    (reset c).gates = c.gates.map fun g => { g with outlier_ := false, outlierCount_ := 0 } := by
  induction c with
  | OutlierDetectionDefault base => rfl
  | OutlierDetectionConcat base sub_ ih => simp [reset, Chain.gates, ih]

theorem sentinel_reset (c : Chain α) : (reset c).sentinel = c.sentinel := by
  induction c with
  | OutlierDetectionDefault base => rfl
  | OutlierDetectionConcat base sub_ ih => simpa [reset, Chain.sentinel] using ih

/-- C13: for every chain in every state, after `reset()` on the head every gate has
`outlier_ = false` and `outlierCount_ = 0` and keeps its `enabled_`, its
`mahalanobisTh_` and its range; the sentinel is left as it is. -/
theorem C13_reset_clears_flags_and_counts (c : Chain α) :
    (reset c).gates = (c.gates.map fun g => { g with outlier_ := false, outlierCount_ := 0 }) ∧
    (reset c).sentinel = c.sentinel ∧
    (∀ (i : Nat) (g : OutlierDetectionBase α), c.gates[i]? = some g →
      ∃ g1, (reset c).gates[i]? = some g1 ∧ g1.outlier_ = false ∧ g1.outlierCount_ = 0 ∧
        g1.enabled_ = g.enabled_ ∧ g1.mahalanobisTh_ = g.mahalanobisTh_ ∧
        g1.S_ = g.S_ ∧ g1.D_ = g.D_) ∧
    (∀ (i : Nat) (g1 : OutlierDetectionBase α), (reset c).gates[i]? = some g1 →
      g1.outlier_ = false ∧ g1.outlierCount_ = 0) := by
  refine ⟨gates_reset c, sentinel_reset c, ?_, ?_⟩
  · intro i g hg
    refine ⟨{ g with outlier_ := false, outlierCount_ := 0 }, ?_, rfl, rfl, rfl, rfl, rfl, rfl⟩
    rw [gates_reset, List.getElem?_map, hg]
    rfl
  · intro i g1 hg1
    rw [gates_reset, List.getElem?_map] at hg1
    cases hg : c.gates[i]? with
    | none => simp [hg] at hg1
    | some g =>
        simp only [hg, Option.map_some', Option.some.injEq] at hg1
        subst hg1
        exact ⟨rfl, rfl⟩

theorem setEnabled_gates (c : Chain α) (i : Nat) (e : Bool) (g : OutlierDetectionBase α)
    (hg : c.gates[i]? = some g) :
    ∃ c1, setEnabled c i e = .ok c1 ∧ c1.gates = c.gates.set i { g with enabled_ := e } ∧
      c1.sentinel = c.sentinel := by
  induction c generalizing i with
  | OutlierDetectionDefault base => simp [Chain.gates] at hg
  | OutlierDetectionConcat base sub_ ih =>
      cases i with
      | zero =>
          simp only [Chain.gates, List.getElem?_cons_zero, Option.some.injEq] at hg
          subst hg
          exact ⟨.OutlierDetectionConcat { base with enabled_ := e } sub_,
            by simp [setEnabled], by simp [Chain.gates], rfl⟩
      | succ j =>
          simp only [Chain.gates, List.getElem?_cons_succ] at hg
          obtain ⟨c1, h1, h2, h3⟩ := ih j hg
          refine ⟨.OutlierDetectionConcat base c1, ?_, ?_, ?_⟩
          · simp [setEnabled, h1, Except.map]
          · simp [Chain.gates, h2]
          · simpa [Chain.sentinel] using h3

theorem gates_setEnabledAll (c : Chain α) (e : Bool) :
    (setEnabledAll c e).gates = c.gates.map fun g => { g with enabled_ := e } := by
  induction c with
  | OutlierDetectionDefault base => rfl
  | OutlierDetectionConcat base sub_ ih => simp [setEnabledAll, Chain.gates, ih]

theorem sentinel_setEnabledAll (c : Chain α) (e : Bool) :
    (setEnabledAll c e).sentinel = c.sentinel := by
  induction c with
  | OutlierDetectionDefault base => rfl
  | OutlierDetectionConcat base sub_ ih => simpa [setEnabledAll, Chain.sentinel] using ih

/-- Calls of `setEnabled` with indices above 0 act on `sub_`. -/
theorem foldlM_setEnabled_succ (e : Bool) (l : List Nat) (base : OutlierDetectionBase α)
    (sub_ : Chain α) :
    (l.map Nat.succ).foldlM (fun c1 i => setEnabled c1 i e) (.OutlierDetectionConcat base sub_) =
      (l.foldlM (fun c1 i => setEnabled c1 i e) sub_).map (.OutlierDetectionConcat base) := by
  induction l generalizing sub_ with
  | nil => rfl
  | cons i rest ih =>
      simp only [List.map_cons, List.foldlM_cons, setEnabled, Nat.succ_ne_zero, if_false,
        Nat.succ_sub_one]
      cases hs : setEnabled sub_ i e with
      | error err => rfl
      | ok sub1 =>
          simp only [Except.map, bind, Except.bind]
          exact ih sub1

theorem setEnabledEach_eq_setEnabledAll (c : Chain α) (e : Bool) :
    setEnabledEach c c.gates.length e = .ok (setEnabledAll c e) := by
  induction c with
  | OutlierDetectionDefault base => rfl
  | OutlierDetectionConcat base sub_ ih =>
      unfold setEnabledEach at ih ⊢
      simp only [Chain.gates, List.length_cons, List.range_succ_eq_map, List.foldlM_cons]
      simp only [setEnabled, if_true, bind, Except.bind]
      rw [foldlM_setEnabled_succ, ih]
      rfl

/-- C14: for every chain with `K` gates, every gate number `i < K` (the gate being
`g`) and every `e`: `setEnabled(i, e)` returns, replaces gate `i` by `g` with
`enabled_ = e` and leaves every other gate, every other field and the sentinel
as they were; `setEnabledAll(e)` sets `enabled_ = e` in every gate and leaves
the chain in the state that calling `setEnabled(i, e)` for every `i < K`
leaves. -/
theorem C14_setEnabled_frame (c : Chain α) (i : Nat) (e : Bool) (g : OutlierDetectionBase α)
    (hg : c.gates[i]? = some g) :
    (∃ c1, setEnabled c i e = .ok c1 ∧
      c1.gates = c.gates.set i { g with enabled_ := e } ∧ c1.sentinel = c.sentinel ∧
      (∀ (j : Nat) (g2 : OutlierDetectionBase α), j ≠ i → c.gates[j]? = some g2 →
        c1.gates[j]? = some g2)) ∧
    (setEnabledAll c e).gates = (c.gates.map fun g2 => { g2 with enabled_ := e }) ∧
    (setEnabledAll c e).sentinel = c.sentinel ∧
    setEnabledEach c c.gates.length e = .ok (setEnabledAll c e) := by
  refine ⟨?_, gates_setEnabledAll c e, sentinel_setEnabledAll c e,
    setEnabledEach_eq_setEnabledAll c e⟩
  obtain ⟨c1, h1, h2, h3⟩ := setEnabled_gates c i e g hg
  refine ⟨c1, h1, h2, h3, ?_⟩
  intro j g2 hji hg2
  rw [h2, List.getElem?_set_ne (Ne.symm hji), hg2]

/-- C14 at the example chain: enabling gate 0. -/
theorem C14_setEnabled_frame_witness :
    exChain.gates[0]? = some exGate0 ∧
    (∃ c1, setEnabled exChain 0 true = .ok c1 ∧
      c1.gates = [{ exGate0 with enabled_ := true }, exGate1]) ∧
    setEnabledEach exChain 2 true = .ok (setEnabledAll exChain true) := by
  obtain ⟨⟨c1, h1, h2, -, -⟩, -, -, h3⟩ := C14_setEnabled_frame exChain 0 true exGate0 rfl
  exact ⟨rfl, ⟨c1, h1, by rw [h2]; rfl⟩, h3⟩

end ResetEnable

/-! ## C15 and C20: what a pass depends on and what it preserves -/

section PassProperties

variable {α : Type} [LinearOrderedField α]
variable (inverse : (k : Nat) → Matrix (Fin k) (Fin k) α → Matrix (Fin k) (Fin k) α)

/-- Every pass that returns is the pass described by `body_spec`, for `Py` and `H`
too. -/
theorem doOutlierDetection_ok_spec {dI dS : Nat} (c c1 : Chain α)
    (v : Matrix (Fin dI) (Fin 1) α) (Py Py1 : Matrix (Fin dI) (Fin dI) α)
    (H H1 : Matrix (Fin dI) (Fin dS) α)
    (h : doOutlierDetection inverse c v Py H = .ok (c1, Py1, H1)) :
    c.adequate dI ∧ c1 = Chain.mapGates (checkedGate inverse v Py) c ∧
      (∀ r k : Fin dI,
        (c1.neutralised r.val ∨ c1.neutralised k.val → Py1 r k = if r = k then 1 else 0) ∧
        (¬ c1.neutralised r.val → ¬ c1.neutralised k.val → Py1 r k = Py r k)) ∧
      (∀ (r : Fin dI) (k : Fin dS),
        (c1.neutralised r.val → H1 r k = 0) ∧ (¬ c1.neutralised r.val → H1 r k = H r k)) := by
  have hd := doOutlierDetection_ok_adequate inverse c v Py H _ h
  obtain ⟨Py2, H2, hbody, hPy, hH⟩ := body_spec inverse c v Py H hd
  rw [doOutlierDetection_eq_body inverse c v Py H hd, hbody] at h
  injection h with h
  injection h with h1 h2
  injection h2 with h2 h3
  subst h1 h2 h3
  exact ⟨hd, rfl, hPy, hH⟩

theorem checkedGate_outlier_congr {E : Nat} (v : Matrix (Fin E) (Fin 1) α)
    (Py : Matrix (Fin E) (Fin E) α) (g g2 : OutlierDetectionBase α)
    (h : g.configuration = g2.configuration) (hin : g.S_ + g.D_ ≤ E) :
    (checkedGate inverse v Py g).outlier_ = (checkedGate inverse v Py g2).outlier_ := by
  obtain ⟨S, D, o, e, t, n⟩ := g
  obtain ⟨S2, D2, o2, e2, t2, n2⟩ := g2
  simp only [OutlierDetectionBase.configuration, Prod.mk.injEq] at h
  obtain ⟨rfl, rfl, rfl⟩ := h
  simp only at hin
  unfold checkedGate
  simp only [dif_pos hin]
  split_ifs <;> rfl

theorem map_checkedGate_outlier_congr {E : Nat} (v : Matrix (Fin E) (Fin 1) α)
    (Py : Matrix (Fin E) (Fin E) α) (l l2 : List (OutlierDetectionBase α))
    (h : l.map OutlierDetectionBase.configuration = l2.map OutlierDetectionBase.configuration)
    (hin : ∀ g ∈ l, g.S_ + g.D_ ≤ E) :
    (l.map (checkedGate inverse v Py)).map (fun g => g.outlier_) =
      (l2.map (checkedGate inverse v Py)).map (fun g => g.outlier_) := by
  induction l generalizing l2 with
  | nil =>
      cases l2 with
      | nil => rfl
      | cons g2 rest2 => simp at h
  | cons g rest ih =>
      cases l2 with
      | nil => simp at h
      | cons g2 rest2 =>
          simp only [List.map_cons, List.cons.injEq] at h
          simp only [List.map_cons, List.cons.injEq]
          exact ⟨checkedGate_outlier_congr inverse v Py g g2 h.1 (hin g (by simp)),
            ih rest2 h.2 (fun x hx => hin x (by simp [hx]))⟩

/-- C15: gating is memoryless. For every two states `c` and `c2` of a chain that
agree on the range and the `mahalanobisTh_` of every gate (and may differ in
`outlier_`, `outlierCount_` and `enabled_`) and every `v`, `Py`, `H` of
adequate dimension, both passes return and leave the same `outlier_` flag in
every gate. -/
theorem C15_gating_is_memoryless {dI dS : Nat} (c c2 : Chain α)
    (v : Matrix (Fin dI) (Fin 1) α) (Py : Matrix (Fin dI) (Fin dI) α)
    (H : Matrix (Fin dI) (Fin dS) α)
    (hsame : c.gates.map OutlierDetectionBase.configuration =
      c2.gates.map OutlierDetectionBase.configuration)
    (hd : c.adequate dI) :
    ∃ c1 Py1 H1 c3 Py3 H3,
      doOutlierDetection inverse c v Py H = .ok (c1, Py1, H1) ∧
      doOutlierDetection inverse c2 v Py H = .ok (c3, Py3, H3) ∧
      c1.gates.map (fun g => g.outlier_) = c3.gates.map (fun g => g.outlier_) := by
  have hd2 := adequate_of_configuration c c2 hsame hd
  obtain ⟨Py1, H1, hrun, -, -⟩ := body_spec inverse c v Py H hd
  obtain ⟨Py3, H3, hrun2, -, -⟩ := body_spec inverse c2 v Py H hd2
  refine ⟨Chain.mapGates (checkedGate inverse v Py) c, Py1, H1,
    Chain.mapGates (checkedGate inverse v Py) c2, Py3, H3, ?_, ?_, ?_⟩
  · rw [doOutlierDetection_eq_body inverse c v Py H hd, hrun]
  · rw [doOutlierDetection_eq_body inverse c2 v Py H hd2, hrun2]
  · rw [gates_mapGates, gates_mapGates]
    exact map_checkedGate_outlier_congr inverse v Py _ _ hsame hd

/-- C15 at the example chain and the same chain with every gate enabled. -/
theorem C15_gating_is_memoryless_witness :
    exChain.gates.map OutlierDetectionBase.configuration =
      (setEnabledAll exChain true).gates.map OutlierDetectionBase.configuration ∧
    exChain.adequate 5 ∧
    ∃ c1 Py1 H1 c3 Py3 H3,
      doOutlierDetection inverseExact exChain exV exPy exH = .ok (c1, Py1, H1) ∧
      doOutlierDetection inverseExact (setEnabledAll exChain true) exV exPy exH =
        .ok (c3, Py3, H3) ∧
      c1.gates.map (fun g => g.outlier_) = c3.gates.map (fun g => g.outlier_) :=
  ⟨rfl, exChain_adequate,
    C15_gating_is_memoryless inverseExact exChain (setEnabledAll exChain true) exV exPy exH
      rfl exChain_adequate⟩

/-- C20: for every chain in every state and every `v` and `H`, if `Py` is symmetric
before `doOutlierDetection` (which returns whenever the dimension is adequate),
then `Py` is symmetric after it. -/
theorem C20_symmetry_is_preserved {dI dS : Nat} (c : Chain α)
    (v : Matrix (Fin dI) (Fin 1) α) (Py : Matrix (Fin dI) (Fin dI) α)
    (H : Matrix (Fin dI) (Fin dS) α) (hsym : ∀ r k, Py r k = Py k r) :
    (c.adequate dI → ∃ r, doOutlierDetection inverse c v Py H = .ok r) ∧
    (∀ c1 Py1 H1, doOutlierDetection inverse c v Py H = .ok (c1, Py1, H1) →
      ∀ r k, Py1 r k = Py1 k r) := by
  constructor
  · intro hd
    obtain ⟨Py1, H1, hrun, -, -⟩ := body_spec inverse c v Py H hd
    exact ⟨_, by rw [doOutlierDetection_eq_body inverse c v Py H hd, hrun]⟩
  · intro c1 Py1 H1 hrun r k
    obtain ⟨-, -, hPy, -⟩ := doOutlierDetection_ok_spec inverse c c1 v Py Py1 H H1 hrun
    by_cases hN : c1.neutralised r.val ∨ c1.neutralised k.val
    · rw [(hPy r k).1 hN, (hPy k r).1 hN.symm]
      by_cases hrk : r = k
      · simp [hrk]
      · simp [hrk, Ne.symm hrk]
    · have hr : ¬ c1.neutralised r.val := fun h => hN (Or.inl h)
      have hk : ¬ c1.neutralised k.val := fun h => hN (Or.inr h)
      rw [(hPy r k).2 hr hk, (hPy k r).2 hk hr]
      exact hsym r k

/-- C20 at the example chain and its symmetric covariance. -/
theorem C20_symmetry_is_preserved_witness :
    (∀ r k, exPy r k = exPy k r) ∧
    ∃ c1 Py1 H1, doOutlierDetection inverseExact exChain exV exPy exH = .ok (c1, Py1, H1) ∧
      ∀ r k, Py1 r k = Py1 k r := by
  have hsym : ∀ r k, exPy r k = exPy k r := by
    intro r k
    simp only [exPy]
    by_cases h : r = k
    · simp [h]
    · simp [h, Ne.symm h]
  obtain ⟨h1, h2⟩ := C20_symmetry_is_preserved inverseExact exChain exV exPy exH hsym
  obtain ⟨⟨c1, Py1, H1⟩, hrun⟩ := h1 exChain_adequate
  exact ⟨hsym, c1, Py1, H1, hrun, h2 c1 Py1 H1 hrun⟩

end PassProperties

/-! ## C17: the static assertion and the block ranges -/

section StaticAssertion

variable {α : Type}

/-- When no `S+D` of the chain overflows `unsigned int`, the static assertions
pass exactly when the dimension is adequate. -/
theorem static_assert_iff_adequate (c : Chain α) (dI : Nat)
    (hw : ∀ g ∈ c.gates, g.S_ + g.D_ < UINT_MOD) :
    doOutlierDetection.static_assert c dI = true ↔ c.adequate dI := by
  induction c with
  | OutlierDetectionDefault base =>
      simp [doOutlierDetection.static_assert, Chain.adequate, Chain.gates]
  | OutlierDetectionConcat base sub_ ih =>
      have hb : base.S_ + base.D_ < UINT_MOD := hw base (by simp [Chain.gates])
      have hs : ∀ g ∈ sub_.gates, g.S_ + g.D_ < UINT_MOD :=
        fun g hg => hw g (by simp [Chain.gates, hg])
      simp only [doOutlierDetection.static_assert, Bool.and_eq_true, decide_eq_true_eq,
        Nat.mod_eq_of_lt hb, ih hs, Chain.adequate, Chain.gates, List.mem_cons, forall_eq_or_imp,
        ge_iff_le]

/-- C17 fails on the chain of `ODEntry<4294967295,2>` with an innovation of
dimension 5: `S+D` wraps to 1, the static assertion `5 >= 1` passes although
the range `[4294967295, 4294967297)` lies outside the matrices, and the first
block access is out of range (here: the range assertion of Eigen). -/
theorem C17_static_assert_passes_on_wrapped_range :
    OutlierDetection ℚ [⟨4294967295, 2, 1⟩] = some exWrapChain ∧
    exWrapChain.ranges = [(4294967295, 2)] ∧
    doOutlierDetection.static_assert exWrapChain 5 = true ∧
    ¬ exWrapChain.adequate 5 ∧
    doOutlierDetection inverseExact exWrapChain exV exPy exH = .error .eigenAssert := by
  refine ⟨?_, rfl, by decide, ?_, ?_⟩
  rotate_left 2
  · have hs : doOutlierDetection.static_assert exWrapChain 5 = true := by decide
    unfold doOutlierDetection
    rw [if_pos hs]
    simp [exWrapChain, OutlierDetectionConcat.init, OutlierDetectionBase.init,
      doOutlierDetection.body, check, block, bind, Except.bind]
  · rw [OutlierDetection]
    rfl
  · intro h
    have := h (OutlierDetectionBase.init ℚ 4294967295 2)
      (by simp [exWrapChain, OutlierDetectionConcat.init, Chain.gates])
    revert this
    decide

end StaticAssertion

/-! ## C16: the recursive pass and the sequential procedure -/

section Refinement

variable {α : Type} [LinearOrderedField α]
variable (inverse : (k : Nat) → Matrix (Fin k) (Fin k) α → Matrix (Fin k) (Fin k) α)

theorem nonOverlapping_tail (p : Nat × Nat) (rs : List (Nat × Nat))
    (h : nonOverlappingRanges (p :: rs)) : nonOverlappingRanges rs := by
  intro i j a b x hij ha hb
  exact h (i + 1) (j + 1) a b x (by omega) (by simpa using ha) (by simpa using hb)

theorem nonOverlapping_head (p : Nat × Nat) (rs : List (Nat × Nat))
    (h : nonOverlappingRanges (p :: rs)) :
    ∀ q ∈ rs, ∀ x, ¬ (inRange p x ∧ inRange q x) := by
  intro q hq x
  obtain ⟨j, hj⟩ := List.mem_iff_getElem?.1 hq
  exact h 0 (j + 1) p q x (by omega) (by simp) (by simpa using hj)

/-- The four writes of a neutralisation, entry by entry. -/
theorem neutraliseBlock_eq {dI dS : Nat} (Py : Matrix (Fin dI) (Fin dI) α)
    (H : Matrix (Fin dI) (Fin dS) α) (S D : Nat) (hb : S + D ≤ dI) :
    ∃ Py1 H1, neutraliseBlock Py H S D = .ok (Py1, H1) ∧
      (∀ r k : Fin dI, Py1 r k =
        if (S ≤ r.val ∧ r.val < S + D) ∨ (S ≤ k.val ∧ k.val < S + D) then
          (if r = k then 1 else 0) else Py r k) ∧
      (∀ (r : Fin dI) (k : Fin dS), H1 r k =
        if S ≤ r.val ∧ r.val < S + D then 0 else H r k) := by
  have hb1 : 0 + dI ≤ dI ∧ S + D ≤ dI := ⟨by omega, hb⟩
  have hb2 : S + D ≤ dI ∧ 0 + dI ≤ dI := ⟨hb, by omega⟩
  have hb3 : S + D ≤ dI ∧ S + D ≤ dI := ⟨hb, hb⟩
  have hb4 : S + D ≤ dI ∧ 0 + dS ≤ dS := ⟨hb, by omega⟩
  refine ⟨fun r c =>
      if S ≤ r.val ∧ r.val < S + D ∧ S ≤ c.val ∧ c.val < S + D then
        if r.val - S = c.val - S then 1 else 0
      else
        if S ≤ r.val ∧ r.val < S + D ∧ 0 ≤ c.val ∧ c.val < 0 + dI then 0
        else if 0 ≤ r.val ∧ r.val < 0 + dI ∧ S ≤ c.val ∧ c.val < S + D then 0 else Py r c,
    fun r c => if S ≤ r.val ∧ r.val < S + D ∧ 0 ≤ c.val ∧ c.val < 0 + dS then 0 else H r c,
    ?_, ?_, ?_⟩
  · simp only [neutraliseBlock, blockSetZero, blockSetIdentity, if_pos hb1, if_pos hb2,
      if_pos hb3, if_pos hb4, bind, Except.bind]
  · intro r k
    by_cases hr : S ≤ r.val ∧ r.val < S + D <;> by_cases hk : S ≤ k.val ∧ k.val < S + D
    · have : (r.val - S = k.val - S) ↔ r = k := by
        rw [Fin.ext_iff]; omega
      simp [hr, hk, this]
    · have : r ≠ k := by
        intro h; apply hk; rw [← h]; exact hr
      simp [hr, hk, this]
    · have : r ≠ k := by
        intro h; apply hr; rw [h]; exact hk
      simp [hr, hk, this]
    · simp [hr, hk]
  · intro r k
    by_cases hr : S ≤ r.val ∧ r.val < S + D
    · simp [hr]
    · simp [hr]

/-- A check depends on `Py` only through the diagonal block of the gate. -/
theorem checkedGate_congr_Py {E : Nat} (v : Matrix (Fin E) (Fin 1) α)
    (Py Py2 : Matrix (Fin E) (Fin E) α) (g : OutlierDetectionBase α)
    (h : ∀ r k : Fin E, g.S_ ≤ r.val → r.val < g.S_ + g.D_ → g.S_ ≤ k.val →
      k.val < g.S_ + g.D_ → Py2 r k = Py r k) :
    checkedGate inverse v Py2 g = checkedGate inverse v Py g := by
  unfold checkedGate
  by_cases hin : g.S_ + g.D_ ≤ E
  · have hs : slice Py2 g.S_ g.S_ g.D_ g.D_ ⟨hin, hin⟩ = slice Py g.S_ g.S_ g.D_ g.D_ ⟨hin, hin⟩ := by
      funext a b
      exact h _ _ (by simp) (by simp) (by simp) (by simp)
    simp only [dif_pos hin, mahalanobisDistance, hs]
  · simp only [dif_neg hin]

/-- The sequential procedure on a chain of adequate dimension with pairwise
non-overlapping ranges returns: the gates are the gates checked against the
`Py` that was passed in, and `Py` and `H` are neutralised exactly on the ranges
of the flagged and enabled gates. -/
theorem sequential_spec {dI dS : Nat} (c : Chain α) (v : Matrix (Fin dI) (Fin 1) α)
    (Py : Matrix (Fin dI) (Fin dI) α) (H : Matrix (Fin dI) (Fin dS) α)
    (hd : c.adequate dI) (hno : nonOverlappingRanges c.ranges) :
    ∃ Py1 H1, doOutlierDetectionSequential inverse c v Py H =
        .ok (Chain.mapGates (checkedGate inverse v Py) c, Py1, H1) ∧
      (∀ r k : Fin dI,
        ((Chain.mapGates (checkedGate inverse v Py) c).neutralised r.val ∨
            (Chain.mapGates (checkedGate inverse v Py) c).neutralised k.val →
          Py1 r k = if r = k then 1 else 0) ∧
        (¬ (Chain.mapGates (checkedGate inverse v Py) c).neutralised r.val →
          ¬ (Chain.mapGates (checkedGate inverse v Py) c).neutralised k.val →
          Py1 r k = Py r k)) ∧
      (∀ (r : Fin dI) (k : Fin dS),
        ((Chain.mapGates (checkedGate inverse v Py) c).neutralised r.val → H1 r k = 0) ∧
        (¬ (Chain.mapGates (checkedGate inverse v Py) c).neutralised r.val → H1 r k = H r k)) := by
  induction c generalizing Py H with
  | OutlierDetectionDefault base =>
      refine ⟨Py, H, rfl, ?_, ?_⟩
      · intro r k
        simp [Chain.mapGates, neutralised_default]
      · intro r k
        simp [Chain.mapGates, neutralised_default]
  | OutlierDetectionConcat base sub_ ih =>
      have hb : base.S_ + base.D_ ≤ dI := hd base (by simp [Chain.gates])
      have hs : sub_.adequate dI := fun g hg => hd g (by simp [Chain.gates, hg])
      have hno2 : nonOverlappingRanges ((base.S_, base.D_) :: sub_.ranges) := by
        simpa [Chain.ranges, Chain.gates] using hno
      have hnos := nonOverlapping_tail _ _ hno2
      have hdisj := nonOverlapping_head _ _ hno2
      have hS := checkedGate_S inverse v Py base
      have hD := checkedGate_D inverse v Py base
      by_cases hfe : ((checkedGate inverse v Py base).outlier_ &&
          (checkedGate inverse v Py base).enabled_) = true
      · have hfe2 := hfe
        simp only [Bool.and_eq_true] at hfe2
        obtain ⟨Py0, H0, hn, hPy0, hH0⟩ := neutraliseBlock_eq Py H base.S_ base.D_ hb
        have hcongr : Chain.mapGates (checkedGate inverse v Py0) sub_ =
            Chain.mapGates (checkedGate inverse v Py) sub_ := by
          apply mapGates_congr
          intro g hg
          apply checkedGate_congr_Py
          intro r k hr1 hr2 hk1 hk2
          have hgr : (g.S_, g.D_) ∈ sub_.ranges := List.mem_map_of_mem _ hg
          have hnr : ¬ (base.S_ ≤ r.val ∧ r.val < base.S_ + base.D_) := fun hx =>
            hdisj _ hgr r.val ⟨hx, hr1, hr2⟩
          have hnk : ¬ (base.S_ ≤ k.val ∧ k.val < base.S_ + base.D_) := fun hx =>
            hdisj _ hgr k.val ⟨hx, hk1, hk2⟩
          rw [hPy0 r k, if_neg (by tauto)]
        obtain ⟨Py2, H2, hrun, hPy2, hH2⟩ := ih Py0 H0 hs hnos
        rw [hcongr] at hrun hPy2 hH2
        refine ⟨Py2, H2, ?_, ?_, ?_⟩
        · simp only [doOutlierDetectionSequential, check_eq inverse base v Py hb, bind,
            Except.bind, hfe, if_true, hS, hD, hn, hrun, Chain.mapGates]
        · intro r k
          have h1 := (hPy2 r k).1
          have h2 := (hPy2 r k).2
          simp only [Chain.mapGates, neutralised_concat, hS, hD, hfe2.1, hfe2.2, true_and]
          constructor
          · intro hor
            by_cases hsub : (Chain.mapGates (checkedGate inverse v Py) sub_).neutralised r.val ∨
                (Chain.mapGates (checkedGate inverse v Py) sub_).neutralised k.val
            · exact h1 hsub
            · have hr : ¬ (Chain.mapGates (checkedGate inverse v Py) sub_).neutralised r.val :=
                fun hx => hsub (Or.inl hx)
              have hk : ¬ (Chain.mapGates (checkedGate inverse v Py) sub_).neutralised k.val :=
                fun hx => hsub (Or.inr hx)
              have hB : (base.S_ ≤ r.val ∧ r.val < base.S_ + base.D_) ∨
                  (base.S_ ≤ k.val ∧ k.val < base.S_ + base.D_) := by
                rcases hor with (hx | hx) | (hx | hx)
                · exact Or.inl hx
                · exact absurd hx hr
                · exact Or.inr hx
                · exact absurd hx hk
              rw [h2 hr hk, hPy0 r k, if_pos hB]
          · intro hr hk
            have hB : ¬ ((base.S_ ≤ r.val ∧ r.val < base.S_ + base.D_) ∨
                (base.S_ ≤ k.val ∧ k.val < base.S_ + base.D_)) := by
              rintro (hx | hx)
              · exact hr (Or.inl hx)
              · exact hk (Or.inl hx)
            rw [h2 (fun hx => hr (Or.inr hx)) (fun hx => hk (Or.inr hx)), hPy0 r k, if_neg hB]
        · intro r k
          have h1 := (hH2 r k).1
          have h2 := (hH2 r k).2
          simp only [Chain.mapGates, neutralised_concat, hS, hD, hfe2.1, hfe2.2, true_and]
          constructor
          · intro hor
            by_cases hsub : (Chain.mapGates (checkedGate inverse v Py) sub_).neutralised r.val
            · exact h1 hsub
            · have hB : base.S_ ≤ r.val ∧ r.val < base.S_ + base.D_ := by
                rcases hor with hx | hx
                · exact hx
                · exact absurd hx hsub
              rw [h2 hsub, hH0 r k, if_pos hB]
          · intro hr
            have hB : ¬ (base.S_ ≤ r.val ∧ r.val < base.S_ + base.D_) := fun hx => hr (Or.inl hx)
            rw [h2 (fun hx => hr (Or.inr hx)), hH0 r k, if_neg hB]
      · have hne : ¬ ((checkedGate inverse v Py base).outlier_ = true ∧
            (checkedGate inverse v Py base).enabled_ = true) := by
          simpa [Bool.and_eq_true] using hfe
        have hiff : ∀ x : Nat,
            (Chain.mapGates (checkedGate inverse v Py)
              (Chain.OutlierDetectionConcat base sub_)).neutralised x ↔
            (Chain.mapGates (checkedGate inverse v Py) sub_).neutralised x := by
          intro x
          simp only [Chain.mapGates, neutralised_concat]
          constructor
          · rintro (h | h)
            · exact absurd ⟨h.1, h.2.1⟩ hne
            · exact h
          · exact Or.inr
        obtain ⟨Py2, H2, hrun, hPy2, hH2⟩ := ih Py H hs hnos
        refine ⟨Py2, H2, ?_, ?_, ?_⟩
        · simp only [doOutlierDetectionSequential, check_eq inverse base v Py hb, bind,
            Except.bind, hfe, hrun, Chain.mapGates]
          simp
        · intro r k
          rw [hiff, hiff]
          exact hPy2 r k
        · intro r k
          rw [hiff]
          exact hH2 r k

/-- A sequential procedure that returns was run on a chain of adequate dimension. -/
theorem sequential_ok_adequate {dI dS : Nat} (c : Chain α) (v : Matrix (Fin dI) (Fin 1) α)
    (Py : Matrix (Fin dI) (Fin dI) α) (H : Matrix (Fin dI) (Fin dS) α)
    (r : Chain α × Matrix (Fin dI) (Fin dI) α × Matrix (Fin dI) (Fin dS) α)
    (h : doOutlierDetectionSequential inverse c v Py H = .ok r) : c.adequate dI := by
  induction c generalizing Py H r with
  | OutlierDetectionDefault base =>
      intro g hg
      simp [Chain.gates] at hg
  | OutlierDetectionConcat base sub_ ih =>
      simp only [doOutlierDetectionSequential, bind, Except.bind] at h
      cases hc : check inverse base v Py with
      | error e => simp [hc] at h
      | ok base1 =>
          have hbase : base.S_ + base.D_ ≤ dI := check_ok_range inverse _ base1 v Py hc
          have hsub : ∃ (Py1 : Matrix (Fin dI) (Fin dI) α) (H1 : Matrix (Fin dI) (Fin dS) α)
              (r1 : Chain α × Matrix (Fin dI) (Fin dI) α × Matrix (Fin dI) (Fin dS) α),
              doOutlierDetectionSequential inverse sub_ v Py1 H1 = .ok r1 := by
            simp only [hc] at h
            by_cases hfe : (base1.outlier_ && base1.enabled_) = true
            · rw [if_pos hfe] at h
              cases hn : neutraliseBlock Py H base1.S_ base1.D_ with
              | error e => simp [hn] at h
              | ok p =>
                  simp only [hn] at h
                  cases hs : doOutlierDetectionSequential inverse sub_ v p.1 p.2 with
                  | error e => simp [hs] at h
                  | ok r1 => exact ⟨p.1, p.2, r1, hs⟩
            · rw [if_neg hfe] at h
              cases hs : doOutlierDetectionSequential inverse sub_ v Py H with
              | error e => simp [hs] at h
              | ok r1 => exact ⟨Py, H, r1, hs⟩
          obtain ⟨Py1, H1, r1, hs⟩ := hsub
          intro g hg
          simp only [Chain.gates, List.mem_cons] at hg
          rcases hg with rfl | hg
          · exact hbase
          · exact ih Py1 H1 r1 hs g hg

/-- C16: for every chain whose gate ranges are pairwise non-overlapping and every
`v`, `Py`, `H`, the recursive `doOutlierDetection` (check this gate, process
the rest of the chain, then neutralise this gate) and the sequential procedure
(for each gate in chain order: check it, neutralise it if flagged and enabled,
move on) return in the same cases (whenever the dimension is adequate) and
with the same gate states, the same `Py` and the same `H`. -/
theorem C16_recursive_pass_equals_sequential_procedure {dI dS : Nat} (c : Chain α)
    (v : Matrix (Fin dI) (Fin 1) α) (Py : Matrix (Fin dI) (Fin dI) α)
    (H : Matrix (Fin dI) (Fin dS) α) (hno : nonOverlappingRanges c.ranges) :
    (c.adequate dI → ∃ r, doOutlierDetection inverse c v Py H = .ok r ∧
      doOutlierDetectionSequential inverse c v Py H = .ok r) ∧
    (∀ r, doOutlierDetection inverse c v Py H = .ok r →
      doOutlierDetectionSequential inverse c v Py H = .ok r) ∧
    (∀ r, doOutlierDetectionSequential inverse c v Py H = .ok r →
      doOutlierDetection inverse c v Py H = .ok r) := by
  have key : c.adequate dI → ∃ r, doOutlierDetection inverse c v Py H = .ok r ∧
      doOutlierDetectionSequential inverse c v Py H = .ok r := by
    intro hd
    obtain ⟨Py1, H1, hrun, hPy, hH⟩ := body_spec inverse c v Py H hd
    obtain ⟨Py2, H2, hseq, hPy2, hH2⟩ := sequential_spec inverse c v Py H hd hno
    obtain ⟨e1, e2⟩ := neutralisation_unique _ _ (fun _ => Iff.rfl) Py Py1 Py2 H H1 H2
      hPy hPy2 hH hH2
    refine ⟨(Chain.mapGates (checkedGate inverse v Py) c, Py1, H1), ?_, ?_⟩
    · rw [doOutlierDetection_eq_body inverse c v Py H hd, hrun]
    · rw [hseq, e1, e2]
  refine ⟨key, ?_, ?_⟩
  · intro r hr
    obtain ⟨r2, h1, h2⟩ := key (doOutlierDetection_ok_adequate inverse c v Py H r hr)
    rw [h1] at hr
    injection hr with hr
    rw [← hr]
    exact h2
  · intro r hr
    obtain ⟨r2, h1, h2⟩ := key (sequential_ok_adequate inverse c v Py H r hr)
    rw [h2] at hr
    injection hr with hr
    rw [← hr]
    exact h1

/-- C16 at the example chain, whose ranges `[0,2)` and `[2,5)` do not overlap. -/
theorem C16_recursive_pass_equals_sequential_procedure_witness :
    nonOverlappingRanges exChain.ranges ∧
    ∃ r, doOutlierDetection inverseExact exChain exV exPy exH = .ok r ∧
      doOutlierDetectionSequential inverseExact exChain exV exPy exH = .ok r := by
  have hno : nonOverlappingRanges exChain.ranges :=
    nonOverlapping_of_from 0 _ (by
      simp [exChain, exGate0, exGate1, OutlierDetectionDefault.init, Chain.ranges, Chain.gates,
        contiguousFrom])
  exact ⟨hno,
    (C16_recursive_pass_equals_sequential_procedure inverseExact exChain exV exPy exH hno).1
      exChain_adequate⟩

end Refinement

/-! ## C19: affine models over flat spaces -/

section Affine

variable {α Input Output Meas Noise : Type} [LinearOrderedField α]

/-- The entries of `jacInputFD`. -/
theorem jacInputFD_apply (m : ModelBase α Input Output Meas Noise)
    (F : Matrix (Fin m.mtOutput.D_) (Fin m.mtInput.D_) α) (input : Input) (meas : Meas)
    (dt d : α) (i : Fin m.mtInput.D_) (k : Fin m.mtOutput.D_) :
    m.jacInputFD F input meas dt d k i =
      m.mtOutput.boxMinus
        (m.eval (m.mtInput.boxPlus input fun j => d * (if j = i then 1 else 0)) meas dt)
        (m.eval input meas dt) k / d := by
  have h := foldl_setCol
    (fun (i : Fin m.mtInput.D_) (k : Fin m.mtOutput.D_) =>
      m.mtOutput.boxMinus
        (m.eval (m.mtInput.boxPlus input fun j =>
          d * (1 : Matrix (Fin m.mtInput.D_) (Fin m.mtInput.D_) α) j i) meas dt)
        (ModelBase.jacInputFD.outputReference m input meas dt) k / d)
    (List.finRange m.mtInput.D_) F k i
  simp only [List.mem_finRange, if_true] at h
  simp only [ModelBase.jacInputFD]
  rw [h]
  simp only [ModelBase.jacInputFD.outputReference, Matrix.one_apply]

/-- C19: for every model over flat vector spaces (in the coordinates `cin` of the
input and `cout` of the output, `boxPlus` is the addition and `boxMinus` the
subtraction) whose `eval` is affine in the input, `eval(x, meas, dt) = A*x + b`,
and for every non-zero step `d`, `jacInputFD(x, meas, dt, d)` is `A`, whatever
`x` and `d` are. -/
theorem C19_affine_model_finite_difference_is_exact (m : ModelBase α Input Output Meas Noise)
    (cin : Input → Fin m.mtInput.D_ → α) (cout : Output → Fin m.mtOutput.D_ → α)
    (hplus : ∀ x t, cin (m.mtInput.boxPlus x t) = cin x + t)
    (hminus : ∀ a b, m.mtOutput.boxMinus a b = cout a - cout b)
    (A : Matrix (Fin m.mtOutput.D_) (Fin m.mtInput.D_) α) (b : Fin m.mtOutput.D_ → α)
    (meas : Meas) (dt : α)
    (heval : ∀ x, cout (m.eval x meas dt) = A.mulVec (cin x) + b)
    (F : Matrix (Fin m.mtOutput.D_) (Fin m.mtInput.D_) α) (x : Input) (d : α) (hd : d ≠ 0) :
    m.jacInputFD F x meas dt d = A := by
  funext k i
  rw [jacInputFD_apply, hminus, Pi.sub_apply, heval, heval, hplus, Matrix.mulVec_add]
  simp only [Pi.add_apply, add_sub_add_right_eq_sub, add_sub_cancel_left]
  have hcol : A.mulVec (fun j => d * (if j = i then 1 else 0)) k = d * A k i := by
    simp only [Matrix.mulVec, Matrix.dotProduct, mul_ite, mul_one, mul_zero,
      Finset.sum_ite_eq', Finset.mem_univ, if_true]
    ring
  rw [hcol, mul_div_cancel_left₀ _ hd]

/-- C19 at the example model, whose `eval` is `2 * input` at identity noise: the
finite-difference Jacobian is 2 for the step 1/2. -/
theorem C19_affine_model_finite_difference_is_exact_witness :
    ((1 : ℚ) / 2 ≠ 0) ∧ exModel.jacInputFD (fun _ _ => 7) 3 0 0 (1 / 2) = fun _ _ => 2 := by
  refine ⟨by norm_num, ?_⟩
  refine C19_affine_model_finite_difference_is_exact exModel (fun x _ => x) (fun y _ => y)
    ?_ ?_ (fun _ _ => 2) (fun _ => 0) 0 0 ?_ (fun _ _ => 7) 3 (1 / 2) (by norm_num)
  · intro x t
    funext j
    have hj : j = (0 : Fin 1) := @Subsingleton.elim (Fin 1) _ _ _
    rw [hj]
    rfl
  · intro a b
    rfl
  · intro x
    funext k
    show exModel.eval x 0 0 = Matrix.mulVec (fun _ _ => (2 : ℚ)) (fun (_ : Fin 1) => x) k + 0
    simp only [Matrix.mulVec, Matrix.dotProduct, Finset.univ_unique, Finset.sum_singleton,
      add_zero]
    simp [ModelBase.eval, ModelBase.evalNoise, exModel, exFlat]

end Affine

end LWF
